import Mathlib

/-!
Verification of the markdown-aware document chunker of this repository
(legacy string/regex chunker `DocumentChunker`, AST chunker
`AstDocumentChunker`, section extractors and chunking configuration).

Strings are modelled as `List Char` (`Str`).  JavaScript `.length` on the
ASCII inputs used here coincides with the list length; `\s` is modelled by
its ASCII part (space, tab, newline, carriage return, vertical tab, form
feed), which is exact for all inputs considered.
-/

set_option maxHeartbeats 1000000

abbrev Str := List Char

/-- Coerce a Lean string literal to the `List Char` model. -/
def str (s : String) : Str := s.data

/-- ASCII part of the JavaScript regex class `\s` (and of `String.trim`). -/
def isJsWs (c : Char) : Bool :=
  c = ' ' || c = '\t' || c = '\n' || c = '\r' || c.val == 11 || c.val == 12

/-- JavaScript regex class `\w` = `[A-Za-z0-9_]`. -/
def isWordChar (c : Char) : Bool :=
  c.isAlpha || c.isDigit || c = '_'

/-- A sentence-ending character of the regex `(?<=[.!?])`. -/
def isEnder (c : Char) : Bool :=
  c = '.' || c = '!' || c = '?'

/-- `dropWhile`-based left trim. -/
def trimLeftWs (cs : Str) : Str := cs.dropWhile isJsWs

/-- JavaScript `String.prototype.trim()`. -/
def jsTrim (cs : Str) : Str :=
  ((trimLeftWs cs).reverse.dropWhile isJsWs).reverse

/-- JavaScript `text.split(sep)` for a single-character separator. -/
def splitOnChar (sep : Char) : Str → List Str
  | [] => [[]]
  | c :: rest =>
    if c = sep then [] :: splitOnChar sep rest
    else
      match splitOnChar sep rest with
      | [] => [[c]]
      | h :: t => (c :: h) :: t

/-- `pieces.join(sep)` on the `List Char` model. -/
def joinSep (sep : Str) : List Str → Str
  | [] => []
  | [p] => p
  | p :: rest => p ++ sep ++ joinSep sep rest

/-- Helper for `text.split(/\n\n+/)`: the accumulator holds the current piece
reversed; `inSep` records being inside a newline separator run.  A run of
two or more newlines is one separator (greedy `\n\n+`). -/
def splitParasGo : Bool → Str → Str → List Str
  | _, acc, [] => [acc.reverse]
  | false, acc, '\n' :: '\n' :: rest => acc.reverse :: splitParasGo true [] rest
  | false, acc, c :: rest => splitParasGo false (c :: acc) rest
  | true, acc, '\n' :: rest => splitParasGo true acc rest
  | true, acc, c :: rest => splitParasGo false (c :: acc) rest

/-- JavaScript `text.split(/\n\n+/)`. -/
def splitParas (cs : Str) : List Str := splitParasGo false [] cs

/-- Helper for `text.split(/(?<=[.!?])\s+/)`: state machine over the
characters.  `inSep` records being inside a whitespace separator run,
`prev` is the last character consumed, `acc` the current piece reversed.
A separator starts at a whitespace character whose predecessor is `.`,
`!` or `?`, and greedily takes the whole whitespace run. -/
def splitSentencesGo (inSep : Bool) (prev : Option Char) (acc : Str) : Str → List Str
  | [] => [acc.reverse]
  | c :: rest =>
    if inSep && isJsWs c then splitSentencesGo true (some c) acc rest
    else if !inSep && (prev.elim false isEnder) && isJsWs c then
      acc.reverse :: splitSentencesGo true (some c) [] rest
    else splitSentencesGo false (some c) (c :: acc) rest

/-- JavaScript `text.split(/(?<=[.!?])\s+/)` (sentence boundary split). -/
def splitSentences (cs : Str) : List Str :=
  splitSentencesGo false none [] cs

/-- Decidable substring test (used to state non-verbatim counterexamples). -/
def substrB (needle hay : Str) : Bool :=
  match hay with
  | [] => needle.isEmpty
  | _ :: rest => needle.isPrefixOf hay || substrB needle rest

/-! ### Output data model (src/chunking/legacy-chunker.ts, `Chunk`) -/

inductive ChunkType where
  | text
  | code
  | list
  | table
deriving DecidableEq, Repr

structure ChunkMetadata where
  sourceFile : Str
  chunkIndex : Nat
  headerHierarchy : List Str
  sectionName : Option Str
  chunkType : ChunkType
  language : Option Str
deriving DecidableEq, Repr

structure Chunk where
  id : Str
  content : Str
  sourceFile : Str
  chunkIndex : Nat
  metadata : ChunkMetadata
deriving DecidableEq, Repr

instance : Inhabited Chunk :=
  ⟨⟨[], [], [], 0, ⟨[], 0, [], none, ChunkType.text, none⟩⟩⟩

/-- Constructor parameters of `DocumentChunker` / `AstChunkerOptions`. -/
structure ChunkerOptions where
  chunkSize : Nat
  chunkOverlap : Nat
deriving DecidableEq, Repr

/-- The chunk id template `` `${sourceFile}-chunk-${chunkIndex}` ``. -/
def mkChunkId (file : Str) (idx : Nat) : Str :=
  file ++ str "-chunk-" ++ (Nat.repr idx).data

/-- Shared shape of every legacy chunk push site: all of them set
`headerHierarchy: headers.filter(h => h)` and
`section: headers[headers.length - 1]`. -/
def mkChunk (file : Str) (idx : Nat) (content : Str) (headers : List Str)
    (ty : ChunkType) (lang : Option Str) : Chunk :=
  { id := mkChunkId file idx
    content := content
    sourceFile := file
    chunkIndex := idx
    metadata :=
      { sourceFile := file
        chunkIndex := idx
        headerHierarchy := headers.filter (fun h => !h.isEmpty)
        sectionName := headers.getLast?
        chunkType := ty
        language := lang } }

/-! ### Legacy chunker (src/chunking/legacy-chunker.ts, `DocumentChunker`) -/

/-- `DocumentChunker.MIN_TEXT_CHUNK_SIZE`. -/
def MIN_TEXT_CHUNK_SIZE : Nat := 50

structure LegacySection where
  headers : List Str
  content : Str
  level : Nat
deriving DecidableEq, Repr

/-- The line regex `^(#{1,6})\s+(.+)$` of `extractSections`.  On success
returns the heading level and `match[2].trim()`; the greedy `\s+`/`.+`
interaction makes the trimmed capture equal to the trimmed tail after the
hashes. -/
def headerMatch (line : Str) : Option (Nat × Str) :=
  let n := (line.takeWhile (· = '#')).length
  let rest := line.drop n
  if 1 ≤ n && n ≤ 6 then
    match rest with
    | c :: _ :: _ => if isJsWs c then some (n, jsTrim rest) else none
    | _ => none
  else none

/-- Loop body of `DocumentChunker.extractSections`: accumulated content lines
are flushed into a section when a heading line is met, the heading stack is
`slice(0, level - 1)` + push. -/
def extractSectionsGo : List Str → List Str → List Str → Nat → List LegacySection
  | [], hdrs, content, lvl =>
    if content.isEmpty then []
    else [⟨hdrs, jsTrim (joinSep (str "\n") content), lvl⟩]
  | l :: rest, hdrs, content, lvl =>
    match headerMatch l with
    | some (n, t) =>
      (if content.isEmpty then []
       else [(⟨hdrs, jsTrim (joinSep (str "\n") content), lvl⟩ : LegacySection)]) ++
        extractSectionsGo rest (hdrs.take (n - 1) ++ [t]) [] n
    | none => extractSectionsGo rest hdrs (content ++ [l]) lvl

/-- `DocumentChunker.extractSections`. -/
def extractSections (text : Str) : List LegacySection :=
  extractSectionsGo (splitOnChar '\n' text) [] [] 0

structure CodeBlock where
  code : Str
  language : Str
  start : Nat
  endIdx : Nat
deriving DecidableEq, Repr

/-- Index of the first occurrence of three consecutive backticks. -/
def idxOfTriple : Str → Option Nat
  | '`' :: '`' :: '`' :: _ => some 0
  | _ :: rest => (idxOfTriple rest).map (· + 1)
  | [] => none

/-- Scanner for the global regex ```` /```(\w+)?\n([\s\S]*?)``` /g ```` of
`extractCodeBlocks`: at each position try to match an opening fence, a
greedy optional word run, a newline, then the lazy body up to the first
closing fence; on success resume after the match, otherwise advance one
character. `rest` is always `cs.drop pos`. -/
def scanCodeBlocks : Nat → Str → Nat → List CodeBlock
  | 0, _, _ => []
  | _, [], _ => []
  | fuel + 1, c :: tail, pos =>
    if (str "```").isPrefixOf (c :: tail) then
      let w := (((c :: tail).drop 3).takeWhile isWordChar).length
      match ((c :: tail).drop (3 + w)).head? with
      | some '\n' =>
        match idxOfTriple ((c :: tail).drop (4 + w)) with
        | some k =>
          let body := ((c :: tail).drop (4 + w)).take k
          let lang := if w = 0 then str "text" else ((c :: tail).drop 3).take w
          let matchLen := 4 + w + k + 3
          ⟨jsTrim body, lang, pos, pos + matchLen⟩ ::
            scanCodeBlocks fuel ((c :: tail).drop matchLen) (pos + matchLen)
        | none => scanCodeBlocks fuel tail (pos + 1)
      | _ => scanCodeBlocks fuel tail (pos + 1)
    else scanCodeBlocks fuel tail (pos + 1)

/-- `DocumentChunker.extractCodeBlocks`.  The fuel argument only serves to
make the scan structurally recursive; every step consumes at least one
character, so `text.length + 1` steps never run out. -/
def extractCodeBlocks (text : Str) : List CodeBlock :=
  scanCodeBlocks (text.length + 1) text 0

/-- A line counts as a list item when its trimmed form matches
`^([-*+]|\d+\.)\s+`. -/
def isListLine (l : Str) : Bool :=
  match jsTrim l with
  | c :: rest =>
    if c = '-' || c = '*' || c = '+' then
      match rest with
      | d :: _ => isJsWs d
      | [] => false
    else
      let ds := (c :: rest).takeWhile Char.isDigit
      if ds.isEmpty then false
      else
        match (c :: rest).drop ds.length with
        | '.' :: e :: _ => isJsWs e
        | _ => false
  | [] => false

/-- `DocumentChunker.detectContentType`.  The JS float comparison
`listLines.length > lines.length * 0.5` is exactly
`2 * listLines.length > lines.length`. -/
def detectContentType (content : Str) : ChunkType :=
  let lines := splitOnChar '\n' content
  let listLines := lines.filter isListLine
  let tableLines := lines.filter (fun l => l.contains '|')
  if 2 * listLines.length > lines.length then ChunkType.list
  else if tableLines.length > 2 then ChunkType.table
  else ChunkType.text

/-- `DocumentChunker.extractSentenceOverlap`: last two sentences joined with
a single space if they fit the overlap budget, else the last sentence if it
fits, else nothing. -/
def extractSentenceOverlap (opts : ChunkerOptions) (text : Str) : Str :=
  let sentences := splitSentences text
  if sentences.isEmpty then []
  else
    let lastOne := (sentences.getLast?).getD []
    if sentences.length ≥ 2 then
      let lastTwo := joinSep (str " ") (sentences.drop (sentences.length - 2))
      if lastTwo.length ≤ opts.chunkOverlap then lastTwo
      else if lastOne.length ≤ opts.chunkOverlap then lastOne
      else []
    else if lastOne.length ≤ opts.chunkOverlap then lastOne
    else []

/-- `currentChunk = currentChunk ? currentChunk + ' ' + sentence : sentence`. -/
def appendSent (cur s : Str) : Str :=
  if cur.isEmpty then s else cur ++ str " " ++ s

/-- Loop of `DocumentChunker.splitBySentencesWithMetadata` over the sentence
list, carrying the running buffer and chunk index. -/
def splitSentGo (opts : ChunkerOptions) (headers : List Str) (file : Str)
    (ty : ChunkType) : List Str → Str → Nat → List Chunk
  | [], cur, idx =>
    if (jsTrim cur).isEmpty then []
    else [mkChunk file idx (jsTrim cur) headers ty none]
  | s :: rest, cur, idx =>
    if (jsTrim s).isEmpty then splitSentGo opts headers file ty rest cur idx
    else if !cur.isEmpty && cur.length + s.length + 1 > opts.chunkSize then
      if (jsTrim cur).isEmpty then
        splitSentGo opts headers file ty rest (appendSent [] s) idx
      else
        mkChunk file idx (jsTrim cur) headers ty none ::
          splitSentGo opts headers file ty rest
            (appendSent (extractSentenceOverlap opts cur) s) (idx + 1)
    else splitSentGo opts headers file ty rest (appendSent cur s) idx

/-- `DocumentChunker.splitBySentencesWithMetadata`. -/
def splitBySentencesWithMetadata (opts : ChunkerOptions) (text : Str)
    (headers : List Str) (file : Str) (startIndex : Nat) (ty : ChunkType)
    (initialOverlap : Str) : List Chunk :=
  splitSentGo opts headers file ty (splitSentences text) initialOverlap startIndex

/-- `currentChunk = currentChunk ? currentChunk + '\n\n' + para : para`. -/
def appendPara (cur p : Str) : Str :=
  if cur.isEmpty then p else cur ++ str "\n\n" ++ p

/-- Loop of `DocumentChunker.chunkTextContent` over the paragraph list.  An
oversized paragraph is routed to the sentence splitter only inside the
flush branch (i.e. only when the running buffer is non-empty). -/
def packParasGo (opts : ChunkerOptions) (headers : List Str) (file : Str)
    (ty : ChunkType) : List Str → Str → Nat → List Chunk
  | [], cur, idx =>
    if (jsTrim cur).isEmpty then []
    else [mkChunk file idx (jsTrim cur) headers ty none]
  | p :: rest, cur, idx =>
    let tp := jsTrim p
    if tp.isEmpty then packParasGo opts headers file ty rest cur idx
    else if !cur.isEmpty && cur.length + tp.length + 2 > opts.chunkSize then
      let flushed := mkChunk file idx (jsTrim cur) headers ty none
      let ov := extractSentenceOverlap opts cur
      if tp.length > opts.chunkSize then
        let sc := splitSentGo opts headers file ty (splitSentences tp) ov (idx + 1)
        let cur' :=
          match sc.getLast? with
          | some c => extractSentenceOverlap opts c.content
          | none => []
        flushed :: (sc ++ packParasGo opts headers file ty rest cur' (idx + 1 + sc.length))
      else
        flushed :: packParasGo opts headers file ty rest (appendPara ov tp) (idx + 1)
    else packParasGo opts headers file ty rest (appendPara cur tp) idx

/-- `DocumentChunker.chunkTextContent`. -/
def chunkTextContent (opts : ChunkerOptions) (text : Str) (headers : List Str)
    (file : Str) (startIndex : Nat) (ty : ChunkType) : List Chunk :=
  if (ty = ChunkType.list || ty = ChunkType.table) && text.length ≤ opts.chunkSize then
    [mkChunk file startIndex text headers ty none]
  else
    let paragraphs := (splitParas text).filter (fun p => !(jsTrim p).isEmpty)
    packParasGo opts headers file ty paragraphs [] startIndex

/-- Loop of `DocumentChunker.chunkSectionWithCode`: text between code blocks
becomes text chunks only above `MIN_TEXT_CHUNK_SIZE`, each code block is a
standalone chunk carrying `block.code` (the trimmed fence body). -/
def chunkWithCodeGo (opts : ChunkerOptions) (sec : LegacySection) (file : Str) :
    List CodeBlock → Nat → Nat → List Chunk
  | [], lastEnd, idx =>
    let textAfter := jsTrim (sec.content.drop lastEnd)
    if textAfter.length > MIN_TEXT_CHUNK_SIZE then
      chunkTextContent opts textAfter sec.headers file idx ChunkType.text
    else []
  | b :: rest, lastEnd, idx =>
    let textBefore := jsTrim ((sec.content.take b.start).drop lastEnd)
    let pre :=
      if textBefore.length > MIN_TEXT_CHUNK_SIZE then
        chunkTextContent opts textBefore sec.headers file idx ChunkType.text
      else []
    let idx' := idx + pre.length
    pre ++ (mkChunk file idx' b.code sec.headers ChunkType.code (some b.language) ::
      chunkWithCodeGo opts sec file rest b.endIdx (idx' + 1))

/-- `DocumentChunker.chunkSectionWithCode`. -/
def chunkSectionWithCode (opts : ChunkerOptions) (sec : LegacySection)
    (codeBlocks : List CodeBlock) (file : Str) (startIndex : Nat) : List Chunk :=
  chunkWithCodeGo opts sec file codeBlocks 0 startIndex

/-- `DocumentChunker.chunkSection` (the code-free case). -/
def chunkSectionPlain (opts : ChunkerOptions) (sec : LegacySection) (file : Str)
    (startIndex : Nat) : List Chunk :=
  chunkTextContent opts sec.content sec.headers file startIndex
    (detectContentType sec.content)

/-- Section loop of `DocumentChunker.chunkText`. -/
def legacyChunkGo (opts : ChunkerOptions) (file : Str) :
    List LegacySection → Nat → List Chunk
  | [], _ => []
  | sec :: rest, idx =>
    let blocks := extractCodeBlocks sec.content
    let cs :=
      if blocks.isEmpty then chunkSectionPlain opts sec file idx
      else chunkSectionWithCode opts sec blocks file idx
    cs ++ legacyChunkGo opts file rest (idx + cs.length)

/-- `DocumentChunker.chunkText`. -/
def legacyChunkText (opts : ChunkerOptions) (text : Str) (file : Str) : List Chunk :=
  legacyChunkGo opts file (extractSections text) 0

/-! ### mdast node model (the block/inline node kinds handled by
src/chunking/ast-chunker.ts and src/chunking/markdown-ast.ts).  `definition`
stands for the mdast node kinds (definitions, footnotes, yaml, ...) that the
serializer's `default` branch turns into the empty string.  `brk` is the
mdast `break` node, `del` the mdast `delete` node (both Lean keywords). -/

inductive Phrasing where
  | text (value : Str)
  | emphasis (children : List Phrasing)
  | strong (children : List Phrasing)
  | del (children : List Phrasing)
  | inlineCode (value : Str)
  | link (children : List Phrasing) (url : Str)
  | image (alt : Option Str) (url : Str)
  | brk

inductive Content where
  | paragraph (children : List Phrasing)
  | code (lang : Option Str) (value : Str)
  | list (ordered : Bool) (start : Option Nat) (children : List (List Content))
  | table (children : List (List (List Phrasing)))
  | blockquote (children : List Content)
  | heading (depth : Nat) (children : List Phrasing)
  | thematicBreak
  | html (value : Str)
  | definition

/-- `node.type` as a string. -/
def nodeTypeName : Content → Str
  | Content.paragraph _ => str "paragraph"
  | Content.code _ _ => str "code"
  | Content.list _ _ _ => str "list"
  | Content.table _ => str "table"
  | Content.blockquote _ => str "blockquote"
  | Content.heading _ _ => str "heading"
  | Content.thematicBreak => str "thematicBreak"
  | Content.html _ => str "html"
  | Content.definition => str "definition"

mutual

/-- `AstDocumentChunker.serializePhrasingContent` on one child. -/
def serializePhrasingOne : Phrasing → Str
  | Phrasing.text v => v
  | Phrasing.emphasis ch => str "*" ++ serializePhrasingContent ch ++ str "*"
  | Phrasing.strong ch => str "**" ++ serializePhrasingContent ch ++ str "**"
  | Phrasing.del ch => str "~~" ++ serializePhrasingContent ch ++ str "~~"
  | Phrasing.inlineCode v => str "`" ++ v ++ str "`"
  | Phrasing.link ch url => str "[" ++ serializePhrasingContent ch ++ str "]("
      ++ url ++ str ")"
  | Phrasing.image alt url => str "![" ++ alt.getD [] ++ str "](" ++ url ++ str ")"
  | Phrasing.brk => str "\n"

/-- `AstDocumentChunker.serializePhrasingContent` (children joined with `''`). -/
def serializePhrasingContent : List Phrasing → Str
  | [] => []
  | c :: cs => serializePhrasingOne c ++ serializePhrasingContent cs

end

mutual

/-- `extractHeadingText`'s inner `extractText` (markdown-ast.ts): flatten
inline formatting to plain text. -/
def extractTextOne : Phrasing → Str
  | Phrasing.text v => v
  | Phrasing.emphasis ch => extractTextList ch
  | Phrasing.strong ch => extractTextList ch
  | Phrasing.del ch => extractTextList ch
  | Phrasing.inlineCode v => v
  | Phrasing.link ch _ => extractTextList ch
  | Phrasing.image alt _ => alt.getD []
  | Phrasing.brk => str "\n"

/-- `node.children.map(extractText).join('')`. -/
def extractTextList : List Phrasing → Str
  | [] => []
  | c :: cs => extractTextOne c ++ extractTextList cs

end

/-- `AstDocumentChunker.serializeCode`: fenced block with language tag
(`node.lang || ''`). -/
def serializeCode (lang : Option Str) (value : Str) : Str :=
  str "```" ++ lang.getD [] ++ str "\n" ++ value ++ str "\n```"

/-- `AstDocumentChunker.serializeTable` given the already-serialized rows. -/
def serializeTableRows (rows : List Str) (headerCells : Nat) : Str :=
  match rows with
  | [] => []
  | r0 :: rest =>
    let headerSeparator :=
      str "|" ++ joinSep (str "|") (List.replicate headerCells (str "---")) ++ str "|"
    r0 ++ str "\n" ++ headerSeparator ++ str "\n" ++ joinSep (str "\n") rest

/-- `AstDocumentChunker.serializeTable`. -/
def serializeTable (rows : List (List (List Phrasing))) : Str :=
  let rendered := rows.map (fun cells =>
    str "| " ++ joinSep (str " | ") (cells.map serializePhrasingContent) ++ str " |")
  match rows with
  | [] => joinSep (str "\n") rendered
  | r0 :: _ => serializeTableRows rendered r0.length

/-- Indent every line by two spaces (nested list serialization). -/
def indentTwo (s : Str) : Str :=
  joinSep (str "\n") ((splitOnChar '\n' s).map (fun line => str "  " ++ line))

/-- Prefix every line with `> ` (blockquote serialization). -/
def quoteLines (s : Str) : Str :=
  joinSep (str "\n") ((splitOnChar '\n' s).map (fun line => str "> " ++ line))

/-- JavaScript `(node.start || 1)`: `0` and `undefined` both fall back to 1. -/
def effListStart (st : Option Nat) : Nat :=
  match st with
  | some n => if n = 0 then 1 else n
  | none => 1

mutual

/-- `AstDocumentChunker.serializeNode`. -/
def serializeNode : Content → Str
  | Content.paragraph ch => serializePhrasingContent ch
  | Content.code lang v => serializeCode lang v
  | Content.list ordered st items => serializeListNode ordered (effListStart st) items
  | Content.table rows => serializeTable rows
  | Content.blockquote ch => joinSep (str "\n") (serializeBqChildren ch)
  | Content.heading _ _ => []
  | Content.thematicBreak => str "---"
  | Content.html v => v
  | Content.definition => []

/-- `AstDocumentChunker.serializeList`: one line per item, `- ` or `N. `
as the marker, item children joined with `\n` after dropping empties. -/
def serializeListNode (ordered : Bool) (n : Nat) : List (List Content) → Str
  | [] => []
  | item :: rest =>
    let marker := if ordered then (Nat.repr n).data ++ str ". " else str "- "
    let body := joinSep (str "\n")
      ((serializeItemChildren item).filter (fun s => !s.isEmpty))
    (marker ++ body) ++
      (if rest.isEmpty then [] else str "\n" ++ serializeListNode ordered (n + 1) rest)

/-- Serialization of a list item's children: paragraphs round-trip, nested
lists are indented, everything else becomes the empty string. -/
def serializeItemChildren : List Content → List Str
  | [] => []
  | c :: cs =>
    (match c with
     | Content.paragraph ch => serializePhrasingContent ch
     | Content.list ordered st items =>
       indentTwo (serializeListNode ordered (effListStart st) items)
     | _ => []) :: serializeItemChildren cs

/-- `AstDocumentChunker.serializeBlockquote`'s mapped children. -/
def serializeBqChildren : List Content → List Str
  | [] => []
  | c :: cs => quoteLines (serializeNode c) :: serializeBqChildren cs

end

/-- `AstDocumentChunker.serializeNodes`: serialized members, empties dropped,
joined with a blank line. -/
def serializeNodes (nodes : List Content) : Str :=
  joinSep (str "\n\n") ((nodes.map serializeNode).filter (fun s => !s.isEmpty))

/-! ### AST section extraction (src/chunking/markdown-ast.ts) -/

/-- `extractHeadingText` of markdown-ast.ts. -/
def extractHeadingText (children : List Phrasing) : Str :=
  extractTextList children

structure AstSection where
  headings : List Str
  nodes : List Content

/-- JavaScript `array.length = n` on a sparse string array: truncate or
extend with holes (`none`). -/
def setStackLen (stack : List (Option Str)) (n : Nat) : List (Option Str) :=
  stack.take n ++ List.replicate (n - stack.length) none

/-- Loop of `extractAstSections`: heading nodes flush the current section and
update the heading stack (`stack.length = depth - 1` then assignment at
`depth - 1`, i.e. an append); holes are filtered out on emission. -/
def astSectionsGo : List Content → List (Option Str) → List Content → List AstSection
  | [], stack, cur =>
    if cur.isEmpty then [] else [⟨stack.filterMap id, cur⟩]
  | n :: rest, stack, cur =>
    match n with
    | Content.heading d ch =>
      (if cur.isEmpty then []
       else [(⟨stack.filterMap id, cur⟩ : AstSection)]) ++
        astSectionsGo rest (setStackLen stack (d - 1) ++ [some (extractHeadingText ch)]) []
    | _ => astSectionsGo rest stack (cur ++ [n])

/-- `extractAstSections` over the root's children. -/
def extractAstSections (root : List Content) : List AstSection :=
  astSectionsGo root [] []

/-! ### AST chunker (src/chunking/ast-chunker.ts, `AstDocumentChunker`) -/

structure AstChunkMetadata where
  sourceFile : Str
  chunkIndex : Nat
  headerHierarchy : List Str
  sectionName : Option Str
  chunkType : ChunkType
  astNodeTypes : List Str
  language : Option Str
deriving DecidableEq, Repr

structure AstChunk where
  id : Str
  content : Str
  sourceFile : Str
  chunkIndex : Nat
  metadata : AstChunkMetadata
deriving DecidableEq, Repr

instance : Inhabited AstChunk :=
  ⟨⟨[], [], [], 0, ⟨[], 0, [], none, ChunkType.text, [], none⟩⟩⟩

/-- `AstDocumentChunker.groupNodesIntoChunks`: code nodes and fitting
lists/tables become singleton groups; other nodes accumulate greedily up to
`chunkSize`. -/
def groupNodesIntoChunks (opts : ChunkerOptions) :
    List Content → List Content → Nat → List (List Content)
  | [], currentGroup, _ =>
    if currentGroup.isEmpty then [] else [currentGroup]
  | node :: rest, currentGroup, currentSize =>
    let nodeSize := (serializeNode node).length
    match node with
    | Content.code _ _ =>
      (if currentGroup.isEmpty then [] else [currentGroup]) ++
        ([node] :: groupNodesIntoChunks opts rest [] 0)
    | _ =>
      if (match node with
          | Content.list _ _ _ => true
          | Content.table _ => true
          | _ => false) && nodeSize ≤ opts.chunkSize then
        (if currentGroup.isEmpty then [] else [currentGroup]) ++
          ([node] :: groupNodesIntoChunks opts rest [] 0)
      else if currentSize + nodeSize > opts.chunkSize && !currentGroup.isEmpty then
        currentGroup :: groupNodesIntoChunks opts rest [node] nodeSize
      else
        groupNodesIntoChunks opts rest (currentGroup ++ [node]) (currentSize + nodeSize)

/-- `AstDocumentChunker.determineChunkType`: code wins, then table, then
list, else text (`typeCounts[t] > 0` is membership). -/
def determineChunkType (nodes : List Content) : ChunkType :=
  if nodes.any (fun n => nodeTypeName n = str "code") then ChunkType.code
  else if nodes.any (fun n => nodeTypeName n = str "table") then ChunkType.table
  else if nodes.any (fun n => nodeTypeName n = str "list") then ChunkType.list
  else ChunkType.text

/-- Lexicographic comparison of the `List Char` model (JS default sort on
the ASCII type names used here). -/
def lexLe : Str → Str → Bool
  | [], _ => true
  | _ :: _, [] => false
  | a :: as_, b :: bs =>
    if a = b then lexLe as_ bs else a.val < b.val

/-- Insertion sort by `lexLe`. -/
def insertLex (s : Str) : List Str → List Str
  | [] => [s]
  | t :: ts => if lexLe s t then s :: t :: ts else t :: insertLex s ts

def sortLex : List Str → List Str
  | [] => []
  | s :: ss => insertLex s (sortLex ss)

/-- First-occurrence deduplication (JS `Set` insertion order). -/
def dedupFirst : List Str → List Str
  | [] => []
  | s :: ss => s :: (dedupFirst ss).filter (fun t => t ≠ s)

/-- `AstDocumentChunker.extractNodeTypes`: distinct node types, sorted. -/
def extractNodeTypes (nodes : List Content) : List Str :=
  sortLex (dedupFirst (nodes.map nodeTypeName))

/-- `AstDocumentChunker.extractLanguage`: the first code node with a truthy
language tag. -/
def extractLanguage : List Content → Option Str
  | [] => none
  | Content.code (some l) _ :: rest =>
    if l.isEmpty then extractLanguage rest else some l
  | _ :: rest => extractLanguage rest

/-- `AstDocumentChunker.formatHeadingHierarchy`: deepest heading rendered at
its hierarchy depth. -/
def formatHeadingHierarchy (headings : List Str) : Str :=
  match headings.getLast? with
  | none => []
  | some currentHeading =>
    List.replicate headings.length '#' ++ str " " ++ currentHeading

/-- Constructor shape of the chunks pushed by `AstDocumentChunker.chunkSection`. -/
def mkAstChunk (file : Str) (idx : Nat) (content : Str) (headings : List Str)
    (ty : ChunkType) (tys : List Str) (lang : Option Str) : AstChunk :=
  { id := mkChunkId file idx
    content := content
    sourceFile := file
    chunkIndex := idx
    metadata :=
      { sourceFile := file
        chunkIndex := idx
        headerHierarchy := headings.filter (fun h => !h.isEmpty)
        sectionName := headings.getLast?
        chunkType := ty
        astNodeTypes := tys
        language := lang } }

/-- Group loop of `AstDocumentChunker.chunkSection`: overlap (computed from
the previous group's unprefixed serialized content) and then the heading
line are prepended to every chunk after the first of the section. -/
def astChunkGroups (opts : ChunkerOptions) (headingLine : Str)
    (headings : List Str) (file : Str) (startIndex : Nat) :
    List (List Content) → Str → Nat → List AstChunk
  | [], _, _ => []
  | g :: rest, prev, idx =>
    let content := serializeNodes g
    let withOv :=
      if idx > startIndex && !prev.isEmpty then
        let ov := extractSentenceOverlap opts prev
        if ov.isEmpty then content else ov ++ str "\n\n" ++ content
      else content
    let finalContent :=
      if headingLine.isEmpty then withOv else headingLine ++ str "\n\n" ++ withOv
    mkAstChunk file idx (jsTrim finalContent) headings
        (determineChunkType g) (extractNodeTypes g) (extractLanguage g) ::
      astChunkGroups opts headingLine headings file startIndex rest content (idx + 1)

/-- `AstDocumentChunker.chunkSection`. -/
def astChunkSection (opts : ChunkerOptions) (sec : AstSection) (file : Str)
    (startIndex : Nat) : List AstChunk :=
  astChunkGroups opts (formatHeadingHierarchy sec.headings) sec.headings file
    startIndex (groupNodesIntoChunks opts sec.nodes [] 0) [] startIndex

/-- Section loop of `AstDocumentChunker.chunkMarkdown`. -/
def astChunkSectionsGo (opts : ChunkerOptions) (file : Str) :
    List AstSection → Nat → List AstChunk
  | [], _ => []
  | sec :: rest, idx =>
    let cs := astChunkSection opts sec file idx
    cs ++ astChunkSectionsGo opts file rest (idx + cs.length)

/-- `AstDocumentChunker.chunkMarkdown` after the external `parseMarkdownToAst`
step: the chunker applied to the parsed root's children.  Parsing itself is
the third-party remark library and is out of scope; theorems quantify over
the parsed node list. -/
def astChunkRoot (opts : ChunkerOptions) (root : List Content) (file : Str) :
    List AstChunk :=
  astChunkSectionsGo opts file (extractAstSections root) 0

/-! ### Chunking configuration (src/chunking/config.ts) -/

inductive ChunkingMode where
  | legacy
  | ast
deriving DecidableEq, Repr

structure ChunkingConfig where
  mode : ChunkingMode
  chunkSize : Nat
  chunkOverlap : Nat
deriving DecidableEq, Repr

/-- The `defaultChunkingConfig` initializer of src/chunking/config.ts after
env parsing: the returned flag records whether the overlap warning was
printed.  `chunkOverlap >= chunkSize` is normalized to
`Math.min(150, Math.floor(chunkSize / 2))`, never thrown. -/
def defaultChunkingConfigOf (mode : ChunkingMode) (chunkSize chunkOverlap : Nat) :
    ChunkingConfig × Bool :=
  if chunkOverlap ≥ chunkSize then
    (⟨mode, chunkSize, min 150 (chunkSize / 2)⟩, true)
  else (⟨mode, chunkSize, chunkOverlap⟩, false)

/-! ### Spec-side content-type classifiers (for claim C5).
`specClaimedDetectContentType` renders the claim's sentence literally
(share of the NON-BLANK lines, at least 50%); it exists only to state the
counterexample.  `specAmendedDetectContentType` renders the amended sentence
(strict majority of ALL lines, blank ones included). -/

def specClaimedDetectContentType (content : Str) : ChunkType :=
  let nonBlank := (splitOnChar '\n' content).filter (fun l => !(jsTrim l).isEmpty)
  if 2 * (nonBlank.countP isListLine) ≥ nonBlank.length ∧ nonBlank.length > 0 then
    ChunkType.list
  else if ((splitOnChar '\n' content).countP (fun l => l.contains '|')) > 2 then
    ChunkType.table
  else ChunkType.text

def specAmendedDetectContentType (content : Str) : ChunkType :=
  let lines := splitOnChar '\n' content
  if 2 * lines.countP isListLine > lines.length then ChunkType.list
  else if lines.countP (fun l => l.contains '|') > 2 then ChunkType.table
  else ChunkType.text

/-- Chunk lists whose indices run consecutively from `i` and whose ids
follow the `"<file>-chunk-<index>"` template. -/
def idxIdOk {α : Type} (gIdx : α → Nat) (gId : α → Str) (file : Str)
    (cs : List α) (i : Nat) : Prop :=
  cs.map (fun c => (gIdx c, gId c)) =
    (List.range' i cs.length).map (fun k => (k, mkChunkId file k))

/-- Whether a node is an mdast heading (`node.type === 'heading'`). -/
def isHeadingNode : Content → Bool
  | Content.heading _ _ => true
  | _ => false

/-! ### Theorems -/

theorem idxIdOk_nil {α} (gIdx : α → Nat) (gId : α → Str) (file : Str) (i : Nat) :
    idxIdOk gIdx gId file [] i := rfl

theorem idxIdOk_cons {α} {gIdx : α → Nat} {gId : α → Str} {file : Str}
    {c : α} {cs : List α} {i : Nat} (h1 : gIdx c = i) (h2 : gId c = mkChunkId file i)
    (h : idxIdOk gIdx gId file cs (i + 1)) : idxIdOk gIdx gId file (c :: cs) i := by
  simp only [idxIdOk, List.length_cons, List.range'_succ, List.map_cons, h1, h2] at *
  exact congrArg _ h

theorem idxIdOk_append {α} {gIdx : α → Nat} {gId : α → Str} {file : Str}
    {a b : List α} {i : Nat} (ha : idxIdOk gIdx gId file a i)
    (hb : idxIdOk gIdx gId file b (i + a.length)) :
    idxIdOk gIdx gId file (a ++ b) i := by
  simp only [idxIdOk] at *
  rw [List.map_append, List.length_append, Nat.add_comm a.length b.length,
    ← List.range'_append_1, List.map_append, ha, hb]

theorem idxIdOk_single {α} {gIdx : α → Nat} {gId : α → Str} {file : Str}
    {c : α} {i : Nat} (h1 : gIdx c = i) (h2 : gId c = mkChunkId file i) :
    idxIdOk gIdx gId file [c] i :=
  idxIdOk_cons h1 h2 (idxIdOk_nil _ _ _ _)

theorem splitSentGo_idxIdOk (opts : ChunkerOptions) (headers : List Str)
    (file : Str) (ty : ChunkType) : ∀ (ss : List Str) (cur : Str) (idx : Nat),
    idxIdOk Chunk.chunkIndex Chunk.id file
      (splitSentGo opts headers file ty ss cur idx) idx := by
  intro ss
  induction ss with
  | nil =>
    intro cur idx
    simp only [splitSentGo]
    split
    · exact idxIdOk_nil ..
    · exact idxIdOk_single rfl rfl
  | cons s rest ih =>
    intro cur idx
    simp only [splitSentGo]
    split
    · exact ih cur idx
    · split
      · split
        · exact ih _ idx
        · exact idxIdOk_cons rfl rfl (ih _ (idx + 1))
      · exact ih _ idx

theorem packParasGo_idxIdOk (opts : ChunkerOptions) (headers : List Str)
    (file : Str) (ty : ChunkType) : ∀ (ps : List Str) (cur : Str) (idx : Nat),
    idxIdOk Chunk.chunkIndex Chunk.id file
      (packParasGo opts headers file ty ps cur idx) idx := by
  intro ps
  induction ps with
  | nil =>
    intro cur idx
    simp only [packParasGo]
    split
    · exact idxIdOk_nil ..
    · exact idxIdOk_single rfl rfl
  | cons p rest ih =>
    intro cur idx
    simp only [packParasGo]
    split
    · exact ih cur idx
    · split
      · split
        · exact idxIdOk_cons rfl rfl
            (idxIdOk_append (splitSentGo_idxIdOk ..) (ih _ _))
        · exact idxIdOk_cons rfl rfl (ih _ (idx + 1))
      · exact ih _ idx

theorem chunkTextContent_idxIdOk (opts : ChunkerOptions) (text : Str)
    (headers : List Str) (file : Str) (idx : Nat) (ty : ChunkType) :
    idxIdOk Chunk.chunkIndex Chunk.id file
      (chunkTextContent opts text headers file idx ty) idx := by
  simp only [chunkTextContent]
  split
  · exact idxIdOk_single rfl rfl
  · exact packParasGo_idxIdOk ..

theorem chunkWithCodeGo_idxIdOk (opts : ChunkerOptions) (sec : LegacySection)
    (file : Str) : ∀ (bs : List CodeBlock) (lastEnd idx : Nat),
    idxIdOk Chunk.chunkIndex Chunk.id file
      (chunkWithCodeGo opts sec file bs lastEnd idx) idx := by
  intro bs
  induction bs with
  | nil =>
    intro lastEnd idx
    simp only [chunkWithCodeGo]
    split
    · exact chunkTextContent_idxIdOk ..
    · exact idxIdOk_nil ..
  | cons b rest ih =>
    intro lastEnd idx
    simp only [chunkWithCodeGo]
    exact idxIdOk_append (by split <;> first
        | exact chunkTextContent_idxIdOk ..
        | exact idxIdOk_nil ..)
      (by split
          · exact idxIdOk_cons rfl rfl (ih ..)
          · exact idxIdOk_cons rfl rfl (ih ..))

theorem legacyChunkGo_idxIdOk (opts : ChunkerOptions) (file : Str) :
    ∀ (secs : List LegacySection) (idx : Nat),
    idxIdOk Chunk.chunkIndex Chunk.id file (legacyChunkGo opts file secs idx) idx := by
  intro secs
  induction secs with
  | nil => intro idx; exact idxIdOk_nil ..
  | cons sec rest ih =>
    intro idx
    simp only [legacyChunkGo]
    refine idxIdOk_append ?_ (ih _)
    split
    · exact chunkTextContent_idxIdOk ..
    · exact chunkWithCodeGo_idxIdOk ..

theorem astChunkGroups_idxIdOk (opts : ChunkerOptions) (hl : Str)
    (headings : List Str) (file : Str) (startIndex : Nat) :
    ∀ (gs : List (List Content)) (prev : Str) (idx : Nat),
    idxIdOk AstChunk.chunkIndex AstChunk.id file
      (astChunkGroups opts hl headings file startIndex gs prev idx) idx := by
  intro gs
  induction gs with
  | nil => intro prev idx; exact idxIdOk_nil ..
  | cons g rest ih =>
    intro prev idx
    simp only [astChunkGroups]
    exact idxIdOk_cons rfl rfl (ih ..)

theorem astChunkSectionsGo_idxIdOk (opts : ChunkerOptions) (file : Str) :
    ∀ (secs : List AstSection) (idx : Nat),
    idxIdOk AstChunk.chunkIndex AstChunk.id file
      (astChunkSectionsGo opts file secs idx) idx := by
  intro secs
  induction secs with
  | nil => intro idx; exact idxIdOk_nil ..
  | cons sec rest ih =>
    intro idx
    simp only [astChunkSectionsGo]
    exact idxIdOk_append (astChunkGroups_idxIdOk ..) (ih _)

theorem idxIdOk_zero_spec {α} {gIdx : α → Nat} {gId : α → Str} {file : Str}
    {cs : List α} (h : idxIdOk gIdx gId file cs 0) :
    cs.map gIdx = List.range cs.length ∧
      cs.map gId = (List.range cs.length).map (mkChunkId file) := by
  simp only [idxIdOk] at h
  constructor
  · have := congrArg (List.map Prod.fst) h
    simpa [List.map_map, Function.comp_def, List.range_eq_range'] using this
  · have := congrArg (List.map Prod.snd) h
    simpa [List.map_map, Function.comp_def, List.range_eq_range'] using this

/-- C8: for every document processed by either chunker, the emitted
`chunkIndex` values are exactly the contiguous sequence `0..n-1` in document
order, and each chunk's id is `"<file>-chunk-<index>"`.  (For the AST
chunker the theorem quantifies over the parsed root, since parsing is the
external remark library.) -/
theorem chunk_indices_contiguous_and_ids_deterministic :
    (∀ (opts : ChunkerOptions) (text file : Str),
      (legacyChunkText opts text file).map Chunk.chunkIndex =
          List.range (legacyChunkText opts text file).length ∧
        (legacyChunkText opts text file).map Chunk.id =
          (List.range (legacyChunkText opts text file).length).map (mkChunkId file)) ∧
    (∀ (opts : ChunkerOptions) (root : List Content) (file : Str),
      (astChunkRoot opts root file).map AstChunk.chunkIndex =
          List.range (astChunkRoot opts root file).length ∧
        (astChunkRoot opts root file).map AstChunk.id =
          (List.range (astChunkRoot opts root file).length).map (mkChunkId file)) := by
  constructor
  · intro opts text file
    exact idxIdOk_zero_spec (legacyChunkGo_idxIdOk ..)
  · intro opts root file
    exact idxIdOk_zero_spec (astChunkSectionsGo_idxIdOk ..)

theorem dropWhile_eq_self_of_head {α} {p : α → Bool} {l : List α}
    (h : ∀ c, l.head? = some c → p c = false) : l.dropWhile p = l := by
  cases l with
  | nil => rfl
  | cons a t =>
    have := h a rfl
    simp [List.dropWhile_cons, this]

theorem head?_dropWhile_false {α} (p : α → Bool) (l : List α) :
    ∀ c, (l.dropWhile p).head? = some c → p c = false := by
  intro c hc
  have := List.head?_dropWhile_not p l
  rw [hc] at this
  exact this

theorem getLast?_dropWhile {α} (p : α → Bool) : ∀ (l : List α),
    l.dropWhile p ≠ [] → (l.dropWhile p).getLast? = l.getLast?
  | [], h => by simp at h
  | a :: t, h => by
    by_cases hp : p a
    · rw [List.dropWhile_cons_of_pos hp] at h ⊢
      have ht : t ≠ [] := by
        intro he; rw [he] at h; simp at h
      obtain ⟨b, t', rfl⟩ : ∃ b t', t = b :: t' := by
        cases t with
        | nil => exact absurd rfl ht
        | cons b t' => exact ⟨b, t', rfl⟩
      rw [getLast?_dropWhile p _ h, List.getLast?_cons_cons]
    · rw [List.dropWhile_cons_of_neg hp]

theorem jsTrim_head (cs : Str) : ∀ c, (jsTrim cs).head? = some c → isJsWs c = false := by
  intro c hc
  simp only [jsTrim, trimLeftWs] at hc
  rw [List.head?_reverse] at hc
  have hne : (List.dropWhile isJsWs (List.dropWhile isJsWs cs).reverse) ≠ [] := by
    intro he; rw [he] at hc; simp at hc
  rw [getLast?_dropWhile _ _ hne, List.getLast?_reverse] at hc
  exact head?_dropWhile_false _ _ _ hc

theorem jsTrim_getLast (cs : Str) : ∀ c, (jsTrim cs).getLast? = some c → isJsWs c = false := by
  intro c hc
  simp only [jsTrim, trimLeftWs] at hc
  rw [List.getLast?_reverse] at hc
  exact head?_dropWhile_false _ _ _ hc

theorem jsTrim_of_head_getLast {cs : Str}
    (h1 : ∀ c, cs.head? = some c → isJsWs c = false)
    (h2 : ∀ c, cs.getLast? = some c → isJsWs c = false) : jsTrim cs = cs := by
  simp only [jsTrim, trimLeftWs]
  rw [dropWhile_eq_self_of_head h1]
  rw [dropWhile_eq_self_of_head (fun c hc => h2 c (by rwa [List.head?_reverse] at hc))]
  exact List.reverse_reverse cs

theorem jsTrim_idem (cs : Str) : jsTrim (jsTrim cs) = jsTrim cs :=
  jsTrim_of_head_getLast (jsTrim_head cs) (jsTrim_getLast cs)

theorem mem_splitSentGo_meta (opts : ChunkerOptions) (headers : List Str)
    (file : Str) (ty : ChunkType) : ∀ (ss : List Str) (cur : Str) (idx : Nat)
    (c : Chunk), c ∈ splitSentGo opts headers file ty ss cur idx →
    c.metadata.headerHierarchy = headers.filter (fun h => !h.isEmpty) ∧
      c.metadata.chunkType = ty ∧ c.metadata.language = none ∧
      c.content ≠ [] ∧ jsTrim c.content = c.content := by
  intro ss
  induction ss with
  | nil =>
    intro cur idx c hc
    simp only [splitSentGo] at hc
    split at hc
    · simp at hc
    · rename_i hguard
      simp only [List.mem_singleton] at hc
      subst hc
      refine ⟨rfl, rfl, rfl, ?_, jsTrim_idem _⟩
      simpa [mkChunk, List.isEmpty_iff] using hguard
  | cons s rest ih =>
    intro cur idx c hc
    simp only [splitSentGo] at hc
    split at hc
    · exact ih _ _ _ hc
    · split at hc
      · split at hc
        · exact ih _ _ _ hc
        · rename_i hguard
          rcases List.mem_cons.mp hc with h | h
          · subst h
            refine ⟨rfl, rfl, rfl, ?_, jsTrim_idem _⟩
            simpa [mkChunk, List.isEmpty_iff] using hguard
          · exact ih _ _ _ h
      · exact ih _ _ _ hc

theorem mem_packParasGo_meta (opts : ChunkerOptions) (headers : List Str)
    (file : Str) (ty : ChunkType) : ∀ (ps : List Str) (cur : Str) (idx : Nat)
    (c : Chunk), c ∈ packParasGo opts headers file ty ps cur idx →
    c.metadata.headerHierarchy = headers.filter (fun h => !h.isEmpty) ∧
      c.metadata.chunkType = ty ∧ c.metadata.language = none := by
  intro ps
  induction ps with
  | nil =>
    intro cur idx c hc
    simp only [packParasGo] at hc
    split at hc
    · simp at hc
    · simp only [List.mem_singleton] at hc
      subst hc
      exact ⟨rfl, rfl, rfl⟩
  | cons p rest ih =>
    intro cur idx c hc
    simp only [packParasGo] at hc
    split at hc
    · exact ih _ _ _ hc
    · split at hc
      · split at hc
        · rcases List.mem_cons.mp hc with h | h
          · subst h; exact ⟨rfl, rfl, rfl⟩
          · rcases List.mem_append.mp h with h | h
            · obtain ⟨h1, h2, h3, _⟩ := mem_splitSentGo_meta _ _ _ _ _ _ _ _ h
              exact ⟨h1, h2, h3⟩
            · exact ih _ _ _ h
        · rcases List.mem_cons.mp hc with h | h
          · subst h; exact ⟨rfl, rfl, rfl⟩
          · exact ih _ _ _ h
      · exact ih _ _ _ hc

theorem mem_chunkTextContent_meta (opts : ChunkerOptions) (text : Str)
    (headers : List Str) (file : Str) (idx : Nat) (ty : ChunkType) (c : Chunk)
    (hc : c ∈ chunkTextContent opts text headers file idx ty) :
    c.metadata.headerHierarchy = headers.filter (fun h => !h.isEmpty) ∧
      c.metadata.chunkType = ty ∧ c.metadata.language = none := by
  simp only [chunkTextContent] at hc
  split at hc
  · simp only [List.mem_singleton] at hc
    subst hc
    exact ⟨rfl, rfl, rfl⟩
  · exact mem_packParasGo_meta _ _ _ _ _ _ _ _ hc

theorem mem_chunkWithCodeGo_meta (opts : ChunkerOptions) (sec : LegacySection)
    (file : Str) : ∀ (bs : List CodeBlock) (lastEnd idx : Nat) (c : Chunk),
    c ∈ chunkWithCodeGo opts sec file bs lastEnd idx →
    c.metadata.headerHierarchy = sec.headers.filter (fun h => !h.isEmpty) ∧
      ((c.metadata.chunkType = ChunkType.text ∧ c.metadata.language = none) ∨
        (c.metadata.chunkType = ChunkType.code ∧
          ∃ b ∈ bs, c.content = b.code ∧ c.metadata.language = some b.language)) := by
  intro bs
  induction bs with
  | nil =>
    intro lastEnd idx c hc
    simp only [chunkWithCodeGo] at hc
    split at hc
    · obtain ⟨h1, h2, h3⟩ := mem_chunkTextContent_meta _ _ _ _ _ _ _ hc
      exact ⟨h1, Or.inl ⟨h2, h3⟩⟩
    · simp at hc
  | cons b rest ih =>
    intro lastEnd idx c hc
    simp only [chunkWithCodeGo] at hc
    rcases List.mem_append.mp hc with h | h
    · split at h
      · obtain ⟨h1, h2, h3⟩ := mem_chunkTextContent_meta _ _ _ _ _ _ _ h
        exact ⟨h1, Or.inl ⟨h2, h3⟩⟩
      · simp at h
    · rcases List.mem_cons.mp h with h | h
      · subst h
        exact ⟨rfl, Or.inr ⟨rfl, b, List.mem_cons_self .., rfl, rfl⟩⟩
      · obtain ⟨h1, h2⟩ := ih _ _ _ h
        refine ⟨h1, ?_⟩
        rcases h2 with h2 | ⟨h2, b', hb', h3⟩
        · exact Or.inl h2
        · exact Or.inr ⟨h2, b', List.mem_cons_of_mem _ hb', h3⟩

theorem mem_legacyChunkGo (opts : ChunkerOptions) (file : Str) :
    ∀ (secs : List LegacySection) (idx : Nat) (c : Chunk),
    c ∈ legacyChunkGo opts file secs idx →
    ∃ sec ∈ secs,
      c.metadata.headerHierarchy = sec.headers.filter (fun h => !h.isEmpty) := by
  intro secs
  induction secs with
  | nil => intro idx c hc; simp [legacyChunkGo] at hc
  | cons sec rest ih =>
    intro idx c hc
    simp only [legacyChunkGo] at hc
    rcases List.mem_append.mp hc with h | h
    · refine ⟨sec, List.mem_cons_self .., ?_⟩
      split at h
      · exact (mem_chunkTextContent_meta _ _ _ _ _ _ _ h).1
      · exact (mem_chunkWithCodeGo_meta _ _ _ _ _ _ _ h).1
    · obtain ⟨s, hs, h⟩ := ih _ _ h
      exact ⟨s, List.mem_cons_of_mem _ hs, h⟩

theorem mem_astChunkGroups_meta (opts : ChunkerOptions) (hl : Str)
    (headings : List Str) (file : Str) (startIndex : Nat) :
    ∀ (gs : List (List Content)) (prev : Str) (idx : Nat) (c : AstChunk),
    c ∈ astChunkGroups opts hl headings file startIndex gs prev idx →
    c.metadata.headerHierarchy = headings.filter (fun h => !h.isEmpty) := by
  intro gs
  induction gs with
  | nil => intro prev idx c hc; simp [astChunkGroups] at hc
  | cons g rest ih =>
    intro prev idx c hc
    simp only [astChunkGroups] at hc
    rcases List.mem_cons.mp hc with h | h
    · subst h; rfl
    · exact ih _ _ _ h

theorem mem_astChunkSectionsGo (opts : ChunkerOptions) (file : Str) :
    ∀ (secs : List AstSection) (idx : Nat) (c : AstChunk),
    c ∈ astChunkSectionsGo opts file secs idx →
    ∃ sec ∈ secs,
      c.metadata.headerHierarchy = sec.headings.filter (fun h => !h.isEmpty) := by
  intro secs
  induction secs with
  | nil => intro idx c hc; simp [astChunkSectionsGo] at hc
  | cons sec rest ih =>
    intro idx c hc
    simp only [astChunkSectionsGo] at hc
    rcases List.mem_append.mp hc with h | h
    · exact ⟨sec, List.mem_cons_self .., mem_astChunkGroups_meta _ _ _ _ _ _ _ _ _ h⟩
    · obtain ⟨s, hs, h⟩ := ih _ _ h
      exact ⟨s, List.mem_cons_of_mem _ hs, h⟩

theorem splitOnChar_append_sep (sep : Char) (b : Str) : ∀ (a : Str), sep ∉ a →
    splitOnChar sep (a ++ sep :: b) = a :: splitOnChar sep b
  | [], _ => by simp [splitOnChar]
  | c :: a', h => by
    have hc : ¬ c = sep := fun he => h (he ▸ List.mem_cons_self ..)
    have ha : sep ∉ a' := fun hm => h (List.mem_cons_of_mem _ hm)
    have hrec := splitOnChar_append_sep sep b a' ha
    simp only [List.cons_append, splitOnChar, if_neg hc, List.append_eq, hrec]

theorem jsTrim_cons_ws {w : Char} (t : Str) (h : isJsWs w = true) :
    jsTrim (w :: t) = jsTrim t := by
  simp [jsTrim, trimLeftWs, List.dropWhile_cons, h]

theorem headerMatch_level2 (t : Str) (ht : t ≠ []) :
    headerMatch (str "## " ++ t) = some (2, jsTrim t) := by
  obtain ⟨c, t', rfl⟩ := List.exists_cons_of_ne_nil ht
  show headerMatch ('#' :: '#' :: ' ' :: c :: t') = _
  have h1 : headerMatch ('#' :: '#' :: ' ' :: c :: t') =
      some (2, jsTrim (' ' :: c :: t')) := rfl
  rw [h1, jsTrim_cons_ws (w := ' ') (c :: t') (by decide)]

theorem extractSectionsGo_headers_const : ∀ (lines : List Str)
    (hdrs content : List Str) (lvl : Nat),
    (∀ l ∈ lines, headerMatch l = none) →
    ∀ s ∈ extractSectionsGo lines hdrs content lvl, s.headers = hdrs := by
  intro lines
  induction lines with
  | nil =>
    intro hdrs content lvl _ s hs
    simp only [extractSectionsGo] at hs
    split at hs
    · simp at hs
    · simp only [List.mem_singleton] at hs
      subst hs; rfl
  | cons l rest ih =>
    intro hdrs content lvl hnone s hs
    simp only [extractSectionsGo] at hs
    rw [hnone l (List.mem_cons_self ..)] at hs
    exact ih _ _ _ (fun l' hl' => hnone l' (List.mem_cons_of_mem _ hl')) s hs

theorem astSectionsGo_headings_const : ∀ (ns : List Content)
    (stack : List (Option Str)) (cur : List Content),
    (∀ n ∈ ns, isHeadingNode n = false) →
    ∀ s ∈ astSectionsGo ns stack cur, s.headings = stack.filterMap id := by
  intro ns
  induction ns with
  | nil =>
    intro stack cur _ s hs
    simp only [astSectionsGo] at hs
    split at hs
    · simp at hs
    · simp only [List.mem_singleton] at hs
      subst hs; rfl
  | cons n rest ih =>
    intro stack cur hnone s hs
    simp only [astSectionsGo] at hs
    match n, hnone n (List.mem_cons_self ..) with
    | Content.paragraph _, _ => exact ih _ _ (fun m hm => hnone m (List.mem_cons_of_mem _ hm)) s hs
    | Content.code _ _, _ => exact ih _ _ (fun m hm => hnone m (List.mem_cons_of_mem _ hm)) s hs
    | Content.list _ _ _, _ => exact ih _ _ (fun m hm => hnone m (List.mem_cons_of_mem _ hm)) s hs
    | Content.table _, _ => exact ih _ _ (fun m hm => hnone m (List.mem_cons_of_mem _ hm)) s hs
    | Content.blockquote _, _ => exact ih _ _ (fun m hm => hnone m (List.mem_cons_of_mem _ hm)) s hs
    | Content.thematicBreak, _ => exact ih _ _ (fun m hm => hnone m (List.mem_cons_of_mem _ hm)) s hs
    | Content.html _, _ => exact ih _ _ (fun m hm => hnone m (List.mem_cons_of_mem _ hm)) s hs
    | Content.definition, _ => exact ih _ _ (fun m hm => hnone m (List.mem_cons_of_mem _ hm)) s hs

/-- C9: a document whose first heading is a level-2 heading with no
preceding level-1 heading (and no later heading) yields chunks whose
`headerHierarchy` is the one-element array of that heading's text — no
`undefined` entry and no hole — in both the legacy section splitter and the
AST section extractor. -/
theorem heading_gap_filtering :
    (∀ (opts : ChunkerOptions) (t body file : Str),
      '\n' ∉ t → jsTrim t ≠ [] →
      (∀ l ∈ splitOnChar '\n' body, headerMatch l = none) →
      ∀ c ∈ legacyChunkText opts (str "## " ++ t ++ str "\n" ++ body) file,
        c.metadata.headerHierarchy = [jsTrim t]) ∧
    (∀ (opts : ChunkerOptions) (ch : List Phrasing) (rest : List Content) (file : Str),
      (∀ n ∈ rest, isHeadingNode n = false) → extractHeadingText ch ≠ [] →
      ∀ c ∈ astChunkRoot opts (Content.heading 2 ch :: rest) file,
        c.metadata.headerHierarchy = [extractHeadingText ch]) := by
  constructor
  · intro opts t body file hnl htne hbody c hc
    have htn : t ≠ [] := by
      intro he
      exact htne (by rw [he]; rfl)
    have hdoc : str "## " ++ t ++ str "\n" ++ body = (str "## " ++ t) ++ '\n' :: body := by
      simp [str]
    have hsplit : splitOnChar '\n' (str "## " ++ t ++ str "\n" ++ body) =
        (str "## " ++ t) :: splitOnChar '\n' body := by
      rw [hdoc]
      apply splitOnChar_append_sep
      intro hmem
      rcases List.mem_append.mp hmem with h | h
      · simp [str] at h
      · exact hnl h
    have hsecs : ∀ s ∈ extractSections (str "## " ++ t ++ str "\n" ++ body),
        s.headers = [jsTrim t] := by
      intro s hs
      simp only [extractSections, hsplit, extractSectionsGo,
        headerMatch_level2 t htn, List.isEmpty_nil, if_pos, List.nil_append] at hs
      exact extractSectionsGo_headers_const _ _ _ _ hbody s hs
    obtain ⟨sec, hsec, hhier⟩ := mem_legacyChunkGo _ _ _ _ _ hc
    rw [hhier, hsecs sec hsec]
    simp [List.filter_cons, htne]
  · intro opts ch rest file hrest htne c hc
    have hsecs : ∀ s ∈ extractAstSections (Content.heading 2 ch :: rest),
        s.headings = [extractHeadingText ch] := by
      intro s hs
      simp only [extractAstSections, astSectionsGo, List.isEmpty_nil, if_pos,
        List.nil_append] at hs
      have := astSectionsGo_headings_const rest _ [] hrest s hs
      rw [this]
      rfl
    obtain ⟨sec, hsec, hhier⟩ := mem_astChunkSectionsGo _ _ _ _ _ hc
    rw [hhier, hsecs sec hsec]
    simp [List.filter_cons, htne]

/-- Witness for C9 at the spec's concrete document `"## Sub\n\nHello there world."`. -/
theorem heading_gap_filtering_witness :
    ((legacyChunkText ⟨1000, 150⟩
        (str "## " ++ str "Sub" ++ str "\n" ++ str "\nHello there world.")
        (str "doc.md")).headI).metadata.headerHierarchy = [str "Sub"] ∧
    ((astChunkRoot ⟨1000, 150⟩
        [Content.heading 2 [Phrasing.text (str "Sub")],
         Content.paragraph [Phrasing.text (str "Hello there world.")]]
        (str "doc.md")).headI).metadata.headerHierarchy = [str "Sub"] := by
  constructor
  · exact heading_gap_filtering.1 ⟨1000, 150⟩ (str "Sub") (str "\nHello there world.")
      (str "doc.md") (by decide) (by decide) (by decide) _ (by decide)
  · exact heading_gap_filtering.2 ⟨1000, 150⟩ [Phrasing.text (str "Sub")]
      [Content.paragraph [Phrasing.text (str "Hello there world.")]]
      (str "doc.md") (by simp [isHeadingNode]) (by decide) _ (by decide)

/-- C10: when a legacy section contains at least one fenced code block, the
section is routed through `chunkSectionWithCode`, whose chunks only ever
carry `chunkType` code or text — list/table detection is never applied to
the surrounding prose. -/
theorem code_section_chunks_code_or_text (opts : ChunkerOptions)
    (sec : LegacySection) (file : Str) (startIndex : Nat)
    (hblocks : extractCodeBlocks sec.content ≠ []) :
    ∀ c ∈ chunkSectionWithCode opts sec (extractCodeBlocks sec.content) file startIndex,
      c.metadata.chunkType = ChunkType.code ∨ c.metadata.chunkType = ChunkType.text := by
  intro c hc
  rcases (mem_chunkWithCodeGo_meta opts sec file _ _ _ c hc).2 with h | h
  · exact Or.inr h.1
  · exact Or.inl h.1

/-- Witness for C10: a section whose prose looks like a list still yields
only code/text chunks once a fenced block is present. -/
theorem code_section_chunks_code_or_text_witness :
    extractCodeBlocks (str "- aaa aaa aaa\n- bbb bbb bbb\n- ccc ccc ccc\n- ddd ddd\n\n```js\nx()\n```") ≠ [] ∧
    (((chunkSectionWithCode ⟨1000, 150⟩
        ⟨[], str "- aaa aaa aaa\n- bbb bbb bbb\n- ccc ccc ccc\n- ddd ddd\n\n```js\nx()\n```", 0⟩
        (extractCodeBlocks (str "- aaa aaa aaa\n- bbb bbb bbb\n- ccc ccc ccc\n- ddd ddd\n\n```js\nx()\n```"))
        (str "f.md") 0).headI).metadata.chunkType = ChunkType.code ∨
      ((chunkSectionWithCode ⟨1000, 150⟩
        ⟨[], str "- aaa aaa aaa\n- bbb bbb bbb\n- ccc ccc ccc\n- ddd ddd\n\n```js\nx()\n```", 0⟩
        (extractCodeBlocks (str "- aaa aaa aaa\n- bbb bbb bbb\n- ccc ccc ccc\n- ddd ddd\n\n```js\nx()\n```"))
        (str "f.md") 0).headI).metadata.chunkType = ChunkType.text) :=
  ⟨by decide,
    code_section_chunks_code_or_text ⟨1000, 150⟩
      ⟨[], str "- aaa aaa aaa\n- bbb bbb bbb\n- ccc ccc ccc\n- ddd ddd\n\n```js\nx()\n```", 0⟩
      (str "f.md") 0 (by decide) _ (by decide)⟩

/-- C2: an overlap ≥ chunk size never throws — construction is total and
the effective overlap falls back to `min(150, floor(chunkSize/2))` with the
warning flag set; in particular `chunkOverlap=2000, chunkSize=1000` yields
an effective overlap of exactly 150. -/
theorem invalid_overlap_falls_back :
    (∀ (m : ChunkingMode) (size ov : Nat), ov ≥ size →
      (defaultChunkingConfigOf m size ov).1.chunkOverlap = min 150 (size / 2) ∧
        (defaultChunkingConfigOf m size ov).2 = true) ∧
    (defaultChunkingConfigOf ChunkingMode.legacy 1000 2000).1.chunkOverlap = 150 := by
  constructor
  · intro m size ov h
    simp [defaultChunkingConfigOf, h]
  · decide

/-- Witness for C2 at the spec's scenario values. -/
theorem invalid_overlap_falls_back_witness :
    2000 ≥ 1000 ∧
      ((defaultChunkingConfigOf ChunkingMode.ast 1000 2000).1.chunkOverlap =
          min 150 (1000 / 2) ∧
        (defaultChunkingConfigOf ChunkingMode.ast 1000 2000).2 = true) :=
  ⟨by decide, invalid_overlap_falls_back.1 ChunkingMode.ast 1000 2000 (by decide)⟩

/-- C5 counterexample: on `"- a\nb"` exactly 50% of the non-blank lines are
list lines, so the claim's rule (≥ 50% of non-blank lines) says `list`,
but the code (strict majority over all lines) says `text`. -/
theorem detect_content_type_counterexample :
    detectContentType (str "- a\nb") = ChunkType.text ∧
      specClaimedDetectContentType (str "- a\nb") = ChunkType.list ∧
      detectContentType (str "- a\nb") ≠ specClaimedDetectContentType (str "- a\nb") := by
  decide

/-- C5 amended: the legacy classifier marks `list` exactly when strictly
more than 50% of ALL lines (blank ones included) carry a bullet/numbered
marker, `table` when more than two lines contain a pipe, `text` otherwise. -/
theorem detect_content_type_amended (content : Str) :
    detectContentType content = specAmendedDetectContentType content := by
  simp [detectContentType, specAmendedDetectContentType, List.countP_eq_length_filter]

/-- C4 counterexample: with `chunkSize = 15` the single 38-character
paragraph is the first of its section, so the legacy packer emits it whole
as one oversized text chunk instead of splitting it at its sentence
boundaries. -/
theorem oversized_first_paragraph_counterexample :
    (legacyChunkText ⟨15, 5⟩ (str "One one one. Two two two. Three three.")
        (str "f.md")).map Chunk.content =
      [str "One one one. Two two two. Three three."] ∧
      15 < (str "One one one. Two two two. Three three.").length := by
  decide

/-- C4 amended: an oversized paragraph is sentence-split only when it is
reached with a non-empty accumulation buffer; a paragraph that starts the
buffer (for example the sole paragraph of its section) is emitted whole as
one oversized chunk.  The second conjunct shows the split does happen for
an oversized paragraph preceded by content in the same section. -/
theorem oversized_paragraph_amended :
    (∀ (opts : ChunkerOptions) (t : Str) (headers : List Str) (file : Str) (i : Nat),
      splitParas t = [t] → jsTrim t = t → t ≠ [] → t.length > opts.chunkSize →
      chunkTextContent opts t headers file i ChunkType.text =
        [mkChunk file i t headers ChunkType.text none]) ∧
    (legacyChunkText ⟨25, 5⟩
        (str "Intro words here yes.\n\nOne one one. Two two two. Three three.")
        (str "f.md")).map Chunk.content =
      [str "Intro words here yes.", str "One one one. Two two two.",
        str "Three three."] := by
  constructor
  · intro opts t headers file i hsplit htrim htne hbig
    have hne : (!(jsTrim t).isEmpty) = true := by
      rw [htrim]; simpa using htne
    simp only [chunkTextContent, hsplit]
    rw [if_neg (by simp)]
    rw [show (List.filter (fun p => !List.isEmpty (jsTrim p)) [t]) = [t] by
      simp [htrim]; simpa using htne]
    simp only [packParasGo, htrim]
    rw [if_neg (by simpa using htne)]
    rw [if_neg (by simp)]
    simp only [appendPara, List.isEmpty_nil, if_pos, packParasGo, jsTrim_idem, htrim]
    rw [if_neg (by simpa using htne)]
  · decide

/-- Witness for C4 (amended) at a concrete oversized single paragraph. -/
theorem oversized_paragraph_amended_witness :
    splitParas (str "Aa. Bb. Cc.") = [str "Aa. Bb. Cc."] ∧
      jsTrim (str "Aa. Bb. Cc.") = str "Aa. Bb. Cc." ∧
      (str "Aa. Bb. Cc.").length > 5 ∧
      chunkTextContent ⟨5, 3⟩ (str "Aa. Bb. Cc.") [] (str "f.md") 0 ChunkType.text =
        [mkChunk (str "f.md") 0 (str "Aa. Bb. Cc.") [] ChunkType.text none] :=
  ⟨by decide, by decide, by decide,
    oversized_paragraph_amended.1 ⟨5, 3⟩ (str "Aa. Bb. Cc.") [] (str "f.md") 0
      (by decide) (by decide) (by decide) (by decide)⟩

/-- C6 counterexample: the previous chunk ends `"A.\nB."`; the overlap
prepended to the next chunk is `"A. B."` — the two sentences joined with a
single space — which does not occur verbatim anywhere in the previous
chunk's content. -/
theorem overlap_not_verbatim_counterexample :
    (legacyChunkText ⟨12, 10⟩ (str "A.\nB.\n\nC C C C.") (str "f.md")).map
        Chunk.content = [str "A.\nB.", str "A. B.\n\nC C C C."] ∧
      extractSentenceOverlap ⟨12, 10⟩ (str "A.\nB.") = str "A. B." ∧
      substrB (str "A. B.") (str "A.\nB.") = false := by
  decide

/-- C7 counterexample: a fenced block with an empty body gives a legacy
code chunk whose content is the empty string, and an AST section whose only
node serializes to the empty string (with no heading) still emits one chunk
with empty content. -/
theorem empty_chunk_counterexample :
    (legacyChunkText ⟨1000, 150⟩ (str "```js\n```") (str "f.md")).map
        Chunk.content = [[]] ∧
      (astChunkSection ⟨1000, 150⟩ ⟨[], [Content.definition]⟩ (str "f.md") 0).map
        AstChunk.content = [[]] := by
  decide

/-- C3 counterexample: on the spec's scenario document the legacy chunker
emits a single chunk (both short paragraphs are ≤ 50 characters and are
dropped), not three; and the AST chunker's third chunk does carry an
overlap — the whole serialized code block — between the heading line and
its paragraph. -/
theorem scenario_three_chunks_counterexample :
    (legacyChunkText ⟨1000, 150⟩
        (str "# Title\n\nShort para.\n\n```js\nconsole.log(1)\n```\n\nAnother short para.")
        (str "test.md")).length = 1 ∧
      (astChunkRoot ⟨1000, 150⟩
        [Content.heading 1 [Phrasing.text (str "Title")],
         Content.paragraph [Phrasing.text (str "Short para.")],
         Content.code (some (str "js")) (str "console.log(1)"),
         Content.paragraph [Phrasing.text (str "Another short para.")]]
        (str "test.md")).map AstChunk.content =
        [str "# Title\n\nShort para.",
         str "# Title\n\nShort para.\n\n```js\nconsole.log(1)\n```",
         str "# Title\n\n```js\nconsole.log(1)\n```\n\nAnother short para."] := by
  decide

/-- C3 amended: legacy yields exactly the code chunk; AST yields three
chunks, all with `headerHierarchy = ["Title"]` and the heading prefixed —
including the code chunk, which also carries the previous paragraph as
sentence overlap, while the final text chunk carries the serialized code
block as overlap. -/
theorem scenario_three_chunks_amended :
    legacyChunkText ⟨1000, 150⟩
        (str "# Title\n\nShort para.\n\n```js\nconsole.log(1)\n```\n\nAnother short para.")
        (str "test.md") =
      [mkChunk (str "test.md") 0 (str "console.log(1)") [str "Title"]
        ChunkType.code (some (str "js"))] ∧
      astChunkRoot ⟨1000, 150⟩
        [Content.heading 1 [Phrasing.text (str "Title")],
         Content.paragraph [Phrasing.text (str "Short para.")],
         Content.code (some (str "js")) (str "console.log(1)"),
         Content.paragraph [Phrasing.text (str "Another short para.")]]
        (str "test.md") =
      [mkAstChunk (str "test.md") 0 (str "# Title\n\nShort para.")
          [str "Title"] ChunkType.text [str "paragraph"] none,
        mkAstChunk (str "test.md") 1
          (str "# Title\n\nShort para.\n\n```js\nconsole.log(1)\n```")
          [str "Title"] ChunkType.code [str "code"] (some (str "js")),
        mkAstChunk (str "test.md") 2
          (str "# Title\n\n```js\nconsole.log(1)\n```\n\nAnother short para.")
          [str "Title"] ChunkType.text [str "paragraph"] none] := by
  decide

/-- C1 counterexample: the legacy code chunk's content is the trimmed inner
code of the fence (`"print(1)"`), not the serialized fenced block. -/
theorem code_isolation_counterexample :
    (legacyChunkText ⟨1000, 150⟩
        (str "This introductory paragraph talks about the code sample below in detail.\n\n```python\nprint(1)\n```")
        (str "f.md")).map (fun c => (c.content, c.metadata.chunkType, c.metadata.language)) =
      [(str "This introductory paragraph talks about the code sample below in detail.",
          ChunkType.text, none),
        (str "print(1)", ChunkType.code, some (str "python"))] ∧
      str "print(1)" ≠ str "```python\nprint(1)\n```" := by
  decide

/-- C6 amended: the overlap is bounded by `chunkOverlap` and is either
nothing, the last sentence of the given text, or the last two sentences
joined with a single space; when neither of the two candidates fits, the
overlap is empty (no mid-sentence truncation). -/
theorem sentence_overlap_amended (opts : ChunkerOptions) (text : Str) :
    (extractSentenceOverlap opts text).length ≤ opts.chunkOverlap ∧
      (extractSentenceOverlap opts text = [] ∨
        extractSentenceOverlap opts text = ((splitSentences text).getLast?).getD [] ∨
        extractSentenceOverlap opts text =
          joinSep (str " ")
            ((splitSentences text).drop ((splitSentences text).length - 2))) ∧
      (opts.chunkOverlap <
          (joinSep (str " ")
            ((splitSentences text).drop ((splitSentences text).length - 2))).length →
        opts.chunkOverlap < (((splitSentences text).getLast?).getD []).length →
        extractSentenceOverlap opts text = []) := by
  simp only [extractSentenceOverlap]
  split
  · exact ⟨by simp, Or.inl rfl, fun _ _ => rfl⟩
  · split
    · split
      · rename_i hfit2
        exact ⟨hfit2, Or.inr (Or.inr rfl), fun h1 _ => absurd hfit2 (Nat.not_le.mpr h1)⟩
      · split
        · rename_i hfit1
          exact ⟨hfit1, Or.inr (Or.inl rfl), fun _ h2 => absurd hfit1 (Nat.not_le.mpr h2)⟩
        · exact ⟨by simp, Or.inl rfl, fun _ _ => rfl⟩
    · split
      · rename_i hfit1
        exact ⟨hfit1, Or.inr (Or.inl rfl), fun _ h2 => absurd hfit1 (Nat.not_le.mpr h2)⟩
      · exact ⟨by simp, Or.inl rfl, fun _ _ => rfl⟩

/-- Witness for C6 (amended): with overlap budget 3, neither the last two
sentences nor the last sentence of the text fits, so no overlap is taken. -/
theorem sentence_overlap_amended_witness :
    3 < (joinSep (str " ")
          ((splitSentences (str "Hi there everyone. Yes indeed truly done.")).drop
            ((splitSentences (str "Hi there everyone. Yes indeed truly done.")).length - 2))).length ∧
      3 < (((splitSentences (str "Hi there everyone. Yes indeed truly done.")).getLast?).getD []).length ∧
      extractSentenceOverlap ⟨100, 3⟩ (str "Hi there everyone. Yes indeed truly done.") = [] :=
  ⟨by decide, by decide,
    (sentence_overlap_amended ⟨100, 3⟩
      (str "Hi there everyone. Yes indeed truly done.")).2.2 (by decide) (by decide)⟩

theorem serializeCode_ne_nil (lang : Option Str) (v : Str) :
    serializeCode lang v ≠ [] := by
  simp [serializeCode, str]

theorem serializeCode_head (lang : Option Str) (v : Str) :
    ∀ c, (serializeCode lang v).head? = some c → isJsWs c = false := by
  intro c hc
  simp only [serializeCode, str] at hc
  simp only [List.cons_append, List.head?_cons, Option.some.injEq] at hc
  subst hc
  decide

theorem serializeCode_getLast (lang : Option Str) (v : Str) :
    ∀ c, (serializeCode lang v).getLast? = some c → isJsWs c = false := by
  intro c hc
  simp only [serializeCode, str, List.getLast?_append] at hc
  have : (['\n', '`', '`', '`'] : Str).getLast? = some '`' := rfl
  rw [this] at hc
  simp only [Option.or_some, Option.some.injEq] at hc
  subst hc
  decide

theorem jsTrim_append_keeps (x s : Str) (hne : s ≠ [])
    (hhead : ∀ c, s.head? = some c → isJsWs c = false)
    (hlast : ∀ c, s.getLast? = some c → isJsWs c = false) :
    jsTrim (x ++ s) = trimLeftWs x ++ s := by
  simp only [jsTrim, trimLeftWs]
  have hs : List.dropWhile isJsWs s = s := dropWhile_eq_self_of_head hhead
  have h1 : List.dropWhile isJsWs (x ++ s) = List.dropWhile isJsWs x ++ s := by
    rw [List.dropWhile_append]
    split
    · rename_i he
      rw [List.isEmpty_eq_true] at he
      rw [he, hs, List.nil_append]
    · rfl
  rw [h1]
  obtain ⟨d, hd⟩ : ∃ d, s.getLast? = some d := by
    cases hsd : s.getLast? with
    | none => exact absurd (List.getLast?_eq_none_iff.mp hsd) hne
    | some d => exact ⟨d, rfl⟩
  have h2 : List.dropWhile isJsWs ((List.dropWhile isJsWs x ++ s).reverse) =
      (List.dropWhile isJsWs x ++ s).reverse := by
    apply dropWhile_eq_self_of_head
    intro c hc
    rw [List.head?_reverse, List.getLast?_append, hd, Option.or_some] at hc
    cases hc
    exact hlast d hd
  rw [h2, List.reverse_reverse]

theorem serializeNodes_single_code (lang : Option Str) (v : Str) :
    serializeNodes [Content.code lang v] = serializeCode lang v := by
  have h : (serializeCode lang v).isEmpty = false := by
    cases hsc : serializeCode lang v with
    | nil => exact absurd hsc (serializeCode_ne_nil lang v)
    | cons a t => rfl
  simp [serializeNodes, serializeNode, h, joinSep]

theorem code_group_mem (opts : ChunkerOptions) (lang : Option Str) (v : Str) :
    ∀ (ns g : List Content) (sz : Nat), Content.code lang v ∈ ns →
    [Content.code lang v] ∈ groupNodesIntoChunks opts ns g sz := by
  intro ns
  induction ns with
  | nil => intro g sz h; simp at h
  | cons n rest ih =>
    intro g sz h
    rcases List.mem_cons.mp h with h | h
    · subst h
      simp only [groupNodesIntoChunks]
      exact List.mem_append_right _ (List.mem_cons_self ..)
    · have hrec := fun g' sz' => ih g' sz' h
      cases n
      all_goals simp only [groupNodesIntoChunks]
      all_goals repeat' split
      all_goals first
        | exact List.mem_append_right _ (List.mem_cons_of_mem _ (hrec [] 0))
        | exact List.mem_cons_of_mem _ (hrec ..)
        | exact hrec ..

theorem mem_astChunkGroups_of_group (opts : ChunkerOptions) (hl : Str)
    (headings : List Str) (file : Str) (si : Nat) :
    ∀ (gs : List (List Content)) (prev : Str) (idx : Nat) (g : List Content),
    g ∈ gs →
    ∃ c ∈ astChunkGroups opts hl headings file si gs prev idx,
      (∃ X, c.content = jsTrim (X ++ serializeNodes g)) ∧
      c.metadata.chunkType = determineChunkType g ∧
      c.metadata.language = extractLanguage g := by
  intro gs
  induction gs with
  | nil => intro prev idx g h; simp at h
  | cons g' rest ih =>
    intro prev idx g h
    rcases List.mem_cons.mp h with h | h
    · subst h
      simp only [astChunkGroups]
      refine ⟨_, List.mem_cons_self .., ?_, rfl, rfl⟩
      simp only [mkAstChunk]
      split
      · split
        · split
          · exact ⟨[], by simp⟩
          · exact ⟨extractSentenceOverlap opts prev ++ str "\n\n", by simp⟩
        · exact ⟨[], by simp⟩
      · split
        · split
          · exact ⟨hl ++ str "\n\n", by simp⟩
          · exact ⟨hl ++ str "\n\n" ++ (extractSentenceOverlap opts prev ++ str "\n\n"),
              by simp⟩
        · exact ⟨hl ++ str "\n\n", by simp⟩
    · obtain ⟨c, hc, hprops⟩ := ih _ _ g h
      exact ⟨c, List.mem_cons_of_mem _ hc, hprops⟩

theorem chunkWithCodeGo_code_exists (opts : ChunkerOptions) (sec : LegacySection)
    (file : Str) : ∀ (bs : List CodeBlock) (lastEnd idx : Nat) (b : CodeBlock),
    b ∈ bs →
    ∃ c ∈ chunkWithCodeGo opts sec file bs lastEnd idx,
      c.metadata.chunkType = ChunkType.code ∧ c.content = b.code ∧
      c.metadata.language = some b.language := by
  intro bs
  induction bs with
  | nil => intro lastEnd idx b h; simp at h
  | cons b' rest ih =>
    intro lastEnd idx b h
    rcases List.mem_cons.mp h with h | h
    · subst h
      simp only [chunkWithCodeGo]
      exact ⟨_, List.mem_append_right _ (List.mem_cons_self ..), rfl, rfl, rfl⟩
    · obtain ⟨c, hc, hprops⟩ := ih b'.endIdx _ b h
      refine ⟨c, ?_, hprops⟩
      simp only [chunkWithCodeGo]
      exact List.mem_append_right _ (List.mem_cons_of_mem _ hc)

/-- C1 amended: each detected fenced block yields its own chunk of type
`code` with `language` the declared tag.  In the legacy chunker that
chunk's content is exactly the trimmed fence body; in the AST chunker the
serialized fenced block closes the chunk content, behind an optional
heading line and sentence overlap prefix. -/
theorem code_isolation_amended :
    (∀ (opts : ChunkerOptions) (sec : LegacySection) (file : Str) (i : Nat)
      (b : CodeBlock), b ∈ extractCodeBlocks sec.content →
      ∃ c ∈ chunkSectionWithCode opts sec (extractCodeBlocks sec.content) file i,
        c.metadata.chunkType = ChunkType.code ∧ c.content = b.code ∧
        c.metadata.language = some b.language) ∧
    (∀ (opts : ChunkerOptions) (sec : AstSection) (file : Str) (i : Nat)
      (lang : Option Str) (v : Str), Content.code lang v ∈ sec.nodes →
      ∃ c ∈ astChunkSection opts sec file i,
        c.metadata.chunkType = ChunkType.code ∧
        (∃ pre, c.content = pre ++ serializeCode lang v) ∧
        c.metadata.language = extractLanguage [Content.code lang v]) := by
  constructor
  · intro opts sec file i b hb
    exact chunkWithCodeGo_code_exists opts sec file _ 0 i b hb
  · intro opts sec file i lang v hmem
    have hgrp := code_group_mem opts lang v sec.nodes [] 0 hmem
    obtain ⟨c, hc, ⟨X, hX⟩, hty, hlang⟩ :=
      mem_astChunkGroups_of_group opts (formatHeadingHierarchy sec.headings)
        sec.headings file i _ [] i _ hgrp
    refine ⟨c, hc, ?_, ?_, hlang⟩
    · rw [hty]
      rfl
    · refine ⟨trimLeftWs X, ?_⟩
      rw [hX, serializeNodes_single_code,
        jsTrim_append_keeps X _ (serializeCode_ne_nil lang v)
          (serializeCode_head lang v) (serializeCode_getLast lang v)]

/-- Witness for C1 (amended) at concrete fenced blocks in both chunkers. -/
theorem code_isolation_amended_witness :
    (⟨str "print(1)", str "python", 0, 22⟩ : CodeBlock) ∈
        extractCodeBlocks (str "```python\nprint(1)\n```") ∧
      (∃ c ∈ chunkSectionWithCode ⟨1000, 150⟩
          ⟨[], str "```python\nprint(1)\n```", 0⟩
          (extractCodeBlocks (str "```python\nprint(1)\n```")) (str "f.md") 0,
        c.metadata.chunkType = ChunkType.code ∧ c.content = str "print(1)" ∧
        c.metadata.language = some (str "python")) ∧
      Content.code (some (str "js")) (str "x()") ∈
        ([Content.code (some (str "js")) (str "x()")] : List Content) ∧
      (∃ c ∈ astChunkSection ⟨1000, 150⟩
          ⟨[str "T"], [Content.code (some (str "js")) (str "x()")]⟩ (str "f.md") 0,
        c.metadata.chunkType = ChunkType.code ∧
        (∃ pre, c.content = pre ++ serializeCode (some (str "js")) (str "x()")) ∧
        c.metadata.language =
          extractLanguage [Content.code (some (str "js")) (str "x()")]) :=
  ⟨by decide,
    code_isolation_amended.1 ⟨1000, 150⟩ ⟨[], str "```python\nprint(1)\n```", 0⟩
      (str "f.md") 0 ⟨str "print(1)", str "python", 0, 22⟩ (by decide),
    List.mem_cons_self ..,
    code_isolation_amended.2 ⟨1000, 150⟩
      ⟨[str "T"], [Content.code (some (str "js")) (str "x()")]⟩ (str "f.md") 0
      (some (str "js")) (str "x()") (List.mem_cons_self ..)⟩

theorem ender_not_ws {c : Char} (h : isEnder c = true) : isJsWs c = false := by
  simp only [isEnder, Bool.or_eq_true, decide_eq_true_eq] at h
  rcases h with (h | h) | h <;> subst h <;> decide

theorem getLast?_cons_of_ne_nil {α} (a : α) {l : List α} (h : l ≠ []) :
    (a :: l).getLast? = l.getLast? := by
  obtain ⟨b, l', rfl⟩ := List.exists_cons_of_ne_nil h
  exact List.getLast?_cons_cons

theorem ssGo_pieces_lastNonWs : ∀ (rest : Str) (inSep : Bool) (prev : Option Char)
    (acc : Str),
    (inSep = true → acc = []) →
    (∀ d, acc.head? = some d → prev = some d) →
    (match rest.getLast? with
     | some c => isJsWs c = false
     | none => ∀ d, acc.head? = some d → isJsWs d = false) →
    ∀ P ∈ splitSentencesGo inSep prev acc rest,
      ∀ e, P.getLast? = some e → isJsWs e = false := by
  intro rest
  induction rest with
  | nil =>
    intro inSep prev acc _ _ htc P hP e he
    simp only [splitSentencesGo, List.mem_singleton] at hP
    subst hP
    rw [List.getLast?_reverse] at he
    exact htc e he
  | cons c rest' ih =>
    intro inSep prev acc hinv1 hinv2 htc P hP e he
    simp only [splitSentencesGo] at hP
    have htc' : (match rest'.getLast? with
        | some c' => isJsWs c' = false
        | none => ∀ d, ([] : Str).head? = some d → isJsWs d = false) := by
      cases hr : rest'.getLast? with
      | none => intro d hd; simp at hd
      | some c' =>
        have hne : rest' ≠ [] := by
          intro hx; rw [hx] at hr; simp at hr
        rw [getLast?_cons_of_ne_nil c hne, hr] at htc
        exact htc
    split at hP
    · rename_i h1
      rw [Bool.and_eq_true] at h1
      have hacc : acc = [] := hinv1 h1.1
      subst hacc
      exact ih true (some c) [] (fun _ => rfl) (fun d hd => by simp at hd) htc' P hP e he
    · split at hP
      · rename_i h2
        rw [Bool.and_eq_true, Bool.and_eq_true] at h2
        rcases List.mem_cons.mp hP with hPa | hPr
        · subst hPa
          rw [List.getLast?_reverse] at he
          have hprev := hinv2 e he
          rw [hprev] at h2
          exact ender_not_ws h2.1.2
        · exact ih true (some c) [] (fun _ => rfl) (fun d hd => by simp at hd)
            htc' P hPr e he
      · refine ih false (some c) (c :: acc) (by simp) (fun d hd => by
          simp only [List.head?_cons, Option.some.injEq] at hd
          rw [hd]) ?_ P hP e he
        cases hr : rest'.getLast? with
        | none =>
          intro d hd
          simp only [List.head?_cons, Option.some.injEq] at hd
          subst hd
          have hre : rest' = [] := List.getLast?_eq_none_iff.mp hr
          subst hre
          exact htc
        | some c' =>
          have hne : rest' ≠ [] := by
            intro hx; rw [hx] at hr; simp at hr
          rw [getLast?_cons_of_ne_nil c hne, hr] at htc
          exact htc

theorem ssGo_getLast_piece : ∀ (rest : Str) (inSep : Bool) (prev : Option Char)
    (acc : Str),
    (match rest.getLast? with
     | some c => isJsWs c = false
     | none => acc ≠ []) →
    ∃ P, (splitSentencesGo inSep prev acc rest).getLast? = some P ∧ P ≠ [] := by
  intro rest
  induction rest with
  | nil =>
    intro inSep prev acc htc
    refine ⟨acc.reverse, rfl, ?_⟩
    simpa using htc
  | cons c rest' ih =>
    intro inSep prev acc htc
    simp only [splitSentencesGo]
    split
    · rename_i h1
      rw [Bool.and_eq_true] at h1
      cases hr : rest'.getLast? with
      | none =>
        have hre : rest' = [] := List.getLast?_eq_none_iff.mp hr
        subst hre
        simp only [List.getLast?_singleton] at htc
        rw [h1.2] at htc
        simp at htc
      | some c' =>
        have hne : rest' ≠ [] := by
          intro hx; rw [hx] at hr; simp at hr
        rw [getLast?_cons_of_ne_nil c hne] at htc
        exact ih true (some c) acc (by rw [hr]; rw [hr] at htc; exact htc)
    · split
      · rename_i h2
        rw [Bool.and_eq_true, Bool.and_eq_true] at h2
        cases hr : rest'.getLast? with
        | none =>
          have hre : rest' = [] := List.getLast?_eq_none_iff.mp hr
          subst hre
          simp only [List.getLast?_singleton] at htc
          rw [h2.2] at htc
          simp at htc
        | some c' =>
          have hne : rest' ≠ [] := by
            intro hx; rw [hx] at hr; simp at hr
          rw [getLast?_cons_of_ne_nil c hne] at htc
          obtain ⟨P, hPl, hPn⟩ := ih true (some c) []
            (by rw [hr]; rw [hr] at htc; exact htc)
          refine ⟨P, ?_, hPn⟩
          have hrne : splitSentencesGo true (some c) [] rest' ≠ [] := by
            intro hx; rw [hx] at hPl; simp at hPl
          rw [getLast?_cons_of_ne_nil _ hrne]
          exact hPl
      · apply ih false (some c) (c :: acc)
        cases hr : rest'.getLast? with
        | none =>
          have hre : rest' = [] := List.getLast?_eq_none_iff.mp hr
          subst hre
          simp
        | some c' =>
          have hne : rest' ≠ [] := by
            intro hx; rw [hx] at hr; simp at hr
          rw [getLast?_cons_of_ne_nil c hne] at htc
          rw [hr] at htc; exact htc

theorem jsTrim_ne_nil {cs : Str} (hne : cs ≠ [])
    (h : ∀ d, cs.getLast? = some d → isJsWs d = false) : jsTrim cs ≠ [] := by
  obtain ⟨d, hd⟩ : ∃ d, cs.getLast? = some d := by
    cases hc : cs.getLast? with
    | none => exact absurd (List.getLast?_eq_none_iff.mp hc) hne
    | some d => exact ⟨d, rfl⟩
  have hdw := h d hd
  intro hcon
  simp only [jsTrim, trimLeftWs, List.reverse_eq_nil_iff,
    List.dropWhile_eq_nil_iff] at hcon
  have hne2 : List.dropWhile isJsWs cs ≠ [] := by
    intro h2
    rw [List.dropWhile_eq_nil_iff] at h2
    have := h2 d (List.mem_of_getLast?_eq_some hd)
    rw [hdw] at this
    exact Bool.false_ne_true this
  have hd2 : (List.dropWhile isJsWs cs).getLast? = some d := by
    rw [getLast?_dropWhile _ _ hne2]; exact hd
  have hdmem : d ∈ (List.dropWhile isJsWs cs).reverse := by
    rw [List.mem_reverse]
    exact List.mem_of_getLast?_eq_some hd2
  have := hcon d hdmem
  rw [hdw] at this
  exact Bool.false_ne_true this

theorem joinSep_getLast (sep : Str) : ∀ (l : List Str) (P : Str),
    l.getLast? = some P → P ≠ [] → (joinSep sep l).getLast? = P.getLast? := by
  intro l
  induction l with
  | nil => intro P hP; simp at hP
  | cons x rest ih =>
    intro P hP hPne
    cases rest with
    | nil =>
      simp only [List.getLast?_singleton, Option.some.injEq] at hP
      subst hP
      rfl
    | cons y t =>
      rw [List.getLast?_cons_cons] at hP
      have hr := ih P hP hPne
      show ((x ++ sep) ++ joinSep sep (y :: t)).getLast? = _
      rw [List.getLast?_append, hr]
      obtain ⟨e, he⟩ : ∃ e, P.getLast? = some e := by
        cases hc : P.getLast? with
        | none => exact absurd (List.getLast?_eq_none_iff.mp hc) hPne
        | some e => exact ⟨e, rfl⟩
      rw [he]
      rfl

theorem getLast?_drop_of_ne_nil {α} (l : List α) (n : Nat) (h : l.drop n ≠ []) :
    (l.drop n).getLast? = l.getLast? := by
  obtain ⟨e, he⟩ : ∃ e, (l.drop n).getLast? = some e := by
    cases hc : (l.drop n).getLast? with
    | none => exact absurd (List.getLast?_eq_none_iff.mp hc) h
    | some e => exact ⟨e, rfl⟩
  conv_rhs => rw [← List.take_append_drop n l]
  rw [List.getLast?_append, he]
  rfl

theorem overlap_lastNonWs (opts : ChunkerOptions) (t : Str) (htne : t ≠ [])
    (h : ∀ d, t.getLast? = some d → isJsWs d = false) :
    ∀ d, (extractSentenceOverlap opts t).getLast? = some d → isJsWs d = false := by
  have htc : (match t.getLast? with
      | some c => isJsWs c = false
      | none => ([] : Str) ≠ []) := by
    cases hc : t.getLast? with
    | none => exact absurd (List.getLast?_eq_none_iff.mp hc) htne
    | some c => exact h c hc
  obtain ⟨P, hPl, hPne⟩ := ssGo_getLast_piece t false none [] htc
  have hPl' : (splitSentences t).getLast? = some P := hPl
  have hPnw : ∀ e, P.getLast? = some e → isJsWs e = false := by
    intro e he
    refine ssGo_pieces_lastNonWs t false none [] (fun hx => rfl)
      (fun d hd => by simp at hd) ?_ P
      (List.mem_of_getLast?_eq_some hPl) e he
    cases hc : t.getLast? with
    | none => exact absurd (List.getLast?_eq_none_iff.mp hc) htne
    | some c => exact h c hc
  intro d hd
  rcases (sentence_overlap_amended opts t).2.1 with ho | ho | ho
  · rw [ho] at hd
    simp at hd
  · rw [ho, hPl'] at hd
    exact hPnw d hd
  · rw [ho] at hd
    have hdne : (splitSentences t).drop ((splitSentences t).length - 2) ≠ [] := by
      intro hx
      have hlen := congrArg List.length hx
      simp only [List.length_drop, List.length_nil] at hlen
      have hne : splitSentences t ≠ [] := by
        intro hy; rw [hy] at hPl'; simp at hPl'
      have : 0 < (splitSentences t).length := List.length_pos.mpr hne
      omega
    have hdl : ((splitSentences t).drop ((splitSentences t).length - 2)).getLast? =
        some P := by
      rw [getLast?_drop_of_ne_nil _ _ hdne]
      exact hPl'
    rw [joinSep_getLast _ _ P hdl hPne] at hd
    exact hPnw d hd

theorem getLast?_append_right {α} {a b : List α} {e : α} (he : b.getLast? = some e) :
    (a ++ b).getLast? = some e := by
  rw [List.getLast?_append, he]
  rfl

theorem lastNonWs_of_trimmed {x : Str} (h : jsTrim x = x) :
    ∀ d, x.getLast? = some d → isJsWs d = false := by
  intro d hd
  exact jsTrim_getLast x d (by rw [h]; exact hd)

theorem appendPara_lastNonWs (x tp : Str) (htp : tp ≠ [])
    (h : ∀ d, tp.getLast? = some d → isJsWs d = false) :
    ∀ d, (appendPara x tp).getLast? = some d → isJsWs d = false := by
  intro d hd
  simp only [appendPara] at hd
  split at hd
  · exact h d hd
  · cases he : tp.getLast? with
    | none => exact absurd (List.getLast?_eq_none_iff.mp he) htp
    | some e =>
      rw [getLast?_append_right he] at hd
      cases hd
      exact h d he

theorem packParasGo_content (opts : ChunkerOptions) (hdrs : List Str) (file : Str)
    (ty : ChunkType) : ∀ (ps : List Str) (cur : Str) (idx : Nat),
    (∀ d, cur.getLast? = some d → isJsWs d = false) →
    ∀ c ∈ packParasGo opts hdrs file ty ps cur idx,
      jsTrim c.content = c.content ∧ c.content ≠ [] := by
  intro ps
  induction ps with
  | nil =>
    intro cur idx _ c hc
    simp only [packParasGo] at hc
    split at hc
    · simp at hc
    · rename_i hguard
      simp only [List.mem_singleton] at hc
      subst hc
      exact ⟨jsTrim_idem _, by simpa [mkChunk, List.isEmpty_iff] using hguard⟩
  | cons p rest ih =>
    intro cur idx hinv c hc
    simp only [packParasGo] at hc
    split at hc
    · exact ih cur idx hinv c hc
    · rename_i hskip
      split at hc
      · rename_i hflush
        rw [Bool.and_eq_true] at hflush
        have hcne : cur ≠ [] := by
          simpa using hflush.1
        have hhead : jsTrim (mkChunk file idx (jsTrim cur) hdrs ty none).content =
            (mkChunk file idx (jsTrim cur) hdrs ty none).content ∧
            (mkChunk file idx (jsTrim cur) hdrs ty none).content ≠ [] :=
          ⟨jsTrim_idem _, jsTrim_ne_nil hcne hinv⟩
        split at hc
        · rcases List.mem_cons.mp hc with h | h
          · subst h; exact hhead
          · rcases List.mem_append.mp h with h | h
            · obtain ⟨_, _, _, hne, htrim⟩ := mem_splitSentGo_meta _ _ _ _ _ _ _ _ h
              exact ⟨htrim, hne⟩
            · refine ih _ _ ?_ c h
              cases hlast : (splitSentGo opts hdrs file ty
                  (splitSentences (jsTrim p)) (extractSentenceOverlap opts cur)
                  (idx + 1)).getLast? with
              | none => intro d hd; simp at hd
              | some ch =>
                obtain ⟨_, _, _, hne', htrim'⟩ := mem_splitSentGo_meta _ _ _ _ _ _ _ ch
                  (List.mem_of_getLast?_eq_some hlast)
                exact overlap_lastNonWs opts ch.content hne'
                  (lastNonWs_of_trimmed htrim')
        · rcases List.mem_cons.mp hc with h | h
          · subst h; exact hhead
          · refine ih _ _ ?_ c h
            exact appendPara_lastNonWs _ _ (by simpa using hskip)
              (lastNonWs_of_trimmed (jsTrim_idem p))
      · refine ih _ _ ?_ c hc
        exact appendPara_lastNonWs _ _ (by simpa using hskip)
          (lastNonWs_of_trimmed (jsTrim_idem p))

theorem chunkTextContent_content (opts : ChunkerOptions) (t : Str) (hdrs : List Str)
    (file : Str) (idx : Nat) (ty : ChunkType)
    (hlist : ty = ChunkType.list ∨ ty = ChunkType.table → jsTrim t = t ∧ t ≠ []) :
    ∀ c ∈ chunkTextContent opts t hdrs file idx ty, jsTrim c.content ≠ [] := by
  intro c hc
  simp only [chunkTextContent] at hc
  split at hc
  · rename_i hcond
    rw [Bool.and_eq_true, Bool.or_eq_true, decide_eq_true_eq, decide_eq_true_eq]
      at hcond
    simp only [List.mem_singleton] at hc
    subst hc
    obtain ⟨htrim, htne⟩ := hlist hcond.1
    show jsTrim t ≠ []
    rw [htrim]
    exact htne
  · obtain ⟨htrim, hne⟩ := packParasGo_content _ _ _ _ _ _ _
      (fun d hd => by simp at hd) c hc
    rw [htrim]
    exact hne

theorem extractSectionsGo_content_trimmed : ∀ (lines hdrs content : List Str)
    (lvl : Nat), ∀ s ∈ extractSectionsGo lines hdrs content lvl,
    jsTrim s.content = s.content := by
  intro lines
  induction lines with
  | nil =>
    intro hdrs content lvl s hs
    simp only [extractSectionsGo] at hs
    split at hs
    · simp at hs
    · simp only [List.mem_singleton] at hs
      subst hs
      exact jsTrim_idem _
  | cons l rest ih =>
    intro hdrs content lvl s hs
    simp only [extractSectionsGo] at hs
    split at hs
    · rcases List.mem_append.mp hs with h | h
      · split at h
        · simp at h
        · simp only [List.mem_singleton] at h
          subst h
          exact jsTrim_idem _
      · exact ih _ _ _ s h
    · exact ih _ _ _ s hs

theorem detectContentType_list_table_ne_nil (t : Str)
    (h : detectContentType t = ChunkType.list ∨ detectContentType t = ChunkType.table) :
    t ≠ [] := by
  intro he
  subst he
  revert h
  decide

theorem chunkWithCodeGo_content (opts : ChunkerOptions) (sec : LegacySection)
    (file : Str) (htr : jsTrim sec.content = sec.content) :
    ∀ (bs : List CodeBlock) (lastEnd idx : Nat) (c : Chunk),
    c ∈ chunkWithCodeGo opts sec file bs lastEnd idx →
    c.metadata.chunkType ≠ ChunkType.code → jsTrim c.content ≠ [] := by
  intro bs
  induction bs with
  | nil =>
    intro lastEnd idx c hc _
    simp only [chunkWithCodeGo] at hc
    split at hc
    · exact chunkTextContent_content _ _ _ _ _ _
        (fun h => by rcases h with h | h <;> exact absurd h (by decide)) c hc
    · simp at hc
  | cons b rest ih =>
    intro lastEnd idx c hc hty
    simp only [chunkWithCodeGo] at hc
    rcases List.mem_append.mp hc with h | h
    · split at h
      · exact chunkTextContent_content _ _ _ _ _ _
          (fun h' => by rcases h' with h' | h' <;> exact absurd h' (by decide)) c h
      · simp at h
    · rcases List.mem_cons.mp h with h | h
      · subst h
        exact absurd rfl hty
      · exact ih _ _ c h hty

theorem legacyChunkGo_content (opts : ChunkerOptions) (file : Str) :
    ∀ (secs : List LegacySection) (idx : Nat),
    (∀ s ∈ secs, jsTrim s.content = s.content) →
    ∀ c ∈ legacyChunkGo opts file secs idx,
      c.metadata.chunkType ≠ ChunkType.code → jsTrim c.content ≠ [] := by
  intro secs
  induction secs with
  | nil => intro idx _ c hc; simp [legacyChunkGo] at hc
  | cons sec rest ih =>
    intro idx htr c hc hty
    simp only [legacyChunkGo] at hc
    rcases List.mem_append.mp hc with h | h
    · split at h
      · refine chunkTextContent_content _ _ _ _ _ _ ?_ c h
        intro hl
        exact ⟨htr sec (List.mem_cons_self ..),
          detectContentType_list_table_ne_nil _ hl⟩
      · exact chunkWithCodeGo_content opts sec file
          (htr sec (List.mem_cons_self ..)) _ _ _ c h hty
    · exact ih _ (fun s hs => htr s (List.mem_cons_of_mem _ hs)) c h hty

/-- C7 amended: chunks from the legacy chunker are non-empty after trimming
except for code chunks (whose content is the raw fence body, empty for an
empty fence); the AST chunker still emits a chunk for a group with no
retainable content — with a heading the chunk is just the heading line. -/
theorem nonempty_content_amended :
    (∀ (opts : ChunkerOptions) (text file : Str),
      ∀ c ∈ legacyChunkText opts text file,
        c.metadata.chunkType ≠ ChunkType.code → jsTrim c.content ≠ []) ∧
      (astChunkSection ⟨1000, 150⟩ ⟨[str "H"], [Content.definition]⟩
          (str "f.md") 0).map AstChunk.content = [str "# H"] := by
  constructor
  · intro opts text file c hc hty
    exact legacyChunkGo_content opts file _ 0
      (fun s hs => extractSectionsGo_content_trimmed _ _ _ _ s hs) c hc hty
  · decide

/-- Witness for C7 (amended): the sole chunk of a short plain document is
non-empty after trimming. -/
theorem nonempty_content_amended_witness :
    ((legacyChunkText ⟨1000, 150⟩ (str "Just a short note.") (str "f.md")).headI).metadata.chunkType
        ≠ ChunkType.code ∧
      jsTrim ((legacyChunkText ⟨1000, 150⟩ (str "Just a short note.") (str "f.md")).headI).content ≠ [] :=
  ⟨by decide,
    nonempty_content_amended.1 ⟨1000, 150⟩ (str "Just a short note.") (str "f.md")
      _ (by decide) (by decide)⟩
